import Mathlib

/-!
# hexlish2img: a verification development

A shallow embedding of `hexlish2img.go`, the codec that paints a stream of
"hexlish" symbols as 8x8 colour blocks (PNG or SVG) and reads it back.

Modelling conventions

* Go `int` is `Int`; `/` and `%` are the truncating `Int.tdiv` and `Int.tmod`,
  and a zero divisor is a run-time panic (`Panic.integerDivideByZero`).
* Go `byte` and `uint8` are `Nat` below 256; a conversion to `uint8` reduces
  modulo 256.
* A Go `string` is the list of its runes (`List Char`), a `[]byte` the list of
  its bytes (`List Nat`); `[]byte(s)` is the UTF-8 encoding of `s`.
* A Go map is the list of its entries; `m[k]` is a lookup with the zero value
  as default, and `range m` visits the entries in an order the caller of the
  model supplies (any permutation of the entries).
* `image.RGBA` is a pixel grid with the bounds `[0,width) x [0,height)`; the PNG
  container is the identity on that grid.
* `float64` values are rationals rounded to a 53 bit significand, ties to even.

Scope: integers are unbounded (no wrap-around of `int`), memory is unbounded,
input text is valid UTF-8, and reading and writing never fail. A symbol count
is the length of a slice; where the float64 row count matters it is taken below
`2^53`, the range in which that computation is exact.
-/

namespace Hexlish2img

/-! ## Constants and tables -/

/-- Side of a block in pixels (`const pixelSize = 8`). -/
def pixelSize : Int := 8

/-- A `color.RGBA` value: four 8 bit channels. -/
structure RGBA where
  R : Nat
  G : Nat
  B : Nat
  A : Nat
  deriving DecidableEq, Repr

/-- The zero value of `color.RGBA`. -/
def RGBA.zero : RGBA := ⟨0, 0, 0, 0⟩

/-- Table `hexToHexlish`. -/
def hexToHexlish : List (Char × Char) :=
  [('0', 'A'), ('1', 'C'), ('2', 'E'), ('3', 'H'),
   ('4', 'I'), ('5', 'J'), ('6', 'L'), ('7', 'M'),
   ('8', 'N'), ('9', 'O'), ('A', 'P'), ('B', 'R'),
   ('C', 'S'), ('D', 'T'), ('E', 'U'), ('F', 'V'),
   ('a', 'P'), ('b', 'R'), ('c', 'S'), ('d', 'T'),
   ('e', 'U'), ('f', 'V')]

/-- Table `hexlishToHex`. -/
def hexlishToHex : List (Char × Char) :=
  [('A', '0'), ('C', '1'), ('E', '2'), ('H', '3'),
   ('I', '4'), ('J', '5'), ('L', '6'), ('M', '7'),
   ('N', '8'), ('O', '9'), ('P', 'A'), ('R', 'B'),
   ('S', 'C'), ('T', 'D'), ('U', 'E'), ('V', 'F')]

/-- Table `colorMap`. -/
def colorMap : List (Char × RGBA) :=
  [('A', ⟨209, 177, 135, 255⟩),
   ('C', ⟨199, 123, 88, 255⟩),
   ('E', ⟨174, 93, 64, 255⟩),
   ('H', ⟨121, 68, 74, 255⟩),
   ('I', ⟨75, 61, 68, 255⟩),
   ('J', ⟨186, 145, 88, 255⟩),
   ('L', ⟨146, 116, 65, 255⟩),
   ('M', ⟨77, 69, 57, 255⟩),
   ('N', ⟨119, 116, 59, 255⟩),
   ('O', ⟨179, 165, 85, 255⟩),
   ('P', ⟨210, 201, 165, 255⟩),
   ('R', ⟨140, 171, 161, 255⟩),
   ('S', ⟨75, 114, 110, 255⟩),
   ('T', ⟨87, 72, 82, 255⟩),
   ('U', ⟨132, 120, 117, 255⟩),
   ('V', ⟨171, 155, 142, 255⟩)]

/-- The sixteen symbols, in the order of the tables. -/
def alphabet : List Char :=
  ['A', 'C', 'E', 'H', 'I', 'J', 'L', 'M', 'N', 'O', 'P', 'R', 'S', 'T', 'U', 'V']

/-- The twenty-two hexadecimal digit characters. -/
def hexDigits : List Char :=
  ['0', '1', '2', '3', '4', '5', '6', '7', '8', '9',
   'A', 'B', 'C', 'D', 'E', 'F', 'a', 'b', 'c', 'd', 'e', 'f']

/-- Map access `colorMap[k]`: the zero colour when the key is absent. -/
def colorOf (k : Char) : RGBA :=
  (colorMap.lookup k).getD RGBA.zero

/-- The loop `for k, v := range colorMap { if v == c { ...k...; break } }`:
the key of the first entry, in the iteration order `order`, whose value is `c`. -/
def lookupSymbol (order : List (Char × RGBA)) (c : RGBA) : Option Char :=
  (order.find? (fun kv => decide (kv.2 = c))).map Prod.fst

/-- An iteration order of `colorMap`: a permutation of its entries. -/
def IsOrder (order : List (Char × RGBA)) : Prop :=
  order.Perm colorMap

/-! ## Run-time outcomes -/

/-- Run-time panics of the Go code that the model can reach. -/
inductive Panic where
  | integerDivideByZero
  | indexOutOfRange
  deriving DecidableEq, Repr

deriving instance DecidableEq for Except

/-- A Go `error` value; `none` is `nil`. -/
abbrev GoError := Option String

/-! ## Geometry -/

/-- Function `getBlockPosition`. -/
def getBlockPosition (blockIndex blocksPerRow : Int) : Except Panic (Int × Int) :=
  if blocksPerRow = 0 then .error Panic.integerDivideByZero
  else .ok ((Int.tmod blockIndex blocksPerRow) * pixelSize,
            (Int.tdiv blockIndex blocksPerRow) * pixelSize)

/-! ## Stream normalizer -/

/-- The mapping passed to `strings.Map` in `encodeHexlishToImage`:
`none` stands for the return value `-1` (drop the rune). -/
def cleanRune (r : Char) : Option Char :=
  if r = ' ' ∨ r = '\n' ∨ r = '\r' then none else some r

/-- The call `strings.Map(f, s)`: every rune is replaced by its image, a rune
with a negative image is dropped. -/
def stringsMap (f : Char → Option Char) (s : List Char) : List Char :=
  s.filterMap f

/-- The value `cleanHexData` of `encodeHexlishToImage`. -/
def cleanHexData (hexData : List Char) : List Char :=
  stringsMap cleanRune hexData

/-- The conversion `[]byte(s)`: the UTF-8 bytes of the string. -/
def toBytes (s : List Char) : List Nat :=
  s.flatMap (fun c => (String.utf8EncodeChar c).map UInt8.toNat)

/-! ## Padding trim -/

/-- The loop `for len(data) > 0 && data[len(data)-1] == 0 { data = data[:len(data)-1] }`
run for at most `fuel` iterations. -/
def trimLoop : Nat → List Nat → List Nat
  | 0, data => data
  | fuel + 1, data =>
    if 0 < data.length ∧ data.getLast? = some 0 then trimLoop fuel data.dropLast else data

/-- The padding trim of `decodeToHexlish`; every iteration shortens `data`, so
`data.length` iterations are enough. -/
def trimPadding (data : List Nat) : List Nat :=
  trimLoop data.length data

/-! ## The float64 computation of the row count -/

/-- Round a rational to the nearest integer, a tie to the even neighbour. -/
def roundHalfEven (q : ℚ) : Int :=
  if q - ⌊q⌋ < 1 / 2 then ⌊q⌋
  else if 1 / 2 < q - ⌊q⌋ then ⌊q⌋ + 1
  else if ⌊q⌋ % 2 = 0 then ⌊q⌋ else ⌊q⌋ + 1

/-- Round a positive rational to a 53 bit significand: with `e` the binary
exponent of `q`, the significand `q / 2 ^ (e - 52)` is rounded to an integer. -/
def roundPos (q : ℚ) : ℚ :=
  (roundHalfEven (q * (2 : ℚ) ^ (52 - Int.log 2 q)) : ℚ) * (2 : ℚ) ^ (Int.log 2 q - 52)

/-- The float64 nearest to a rational (round to nearest, ties to even). The
exponent range is not modelled: the operands here are `int` values and their
quotients, which lie well inside it. -/
def toFloat64 (q : ℚ) : ℚ :=
  if q = 0 then 0 else if q < 0 then -roundPos (-q) else roundPos q

/-- The expression `int(math.Ceil(float64(blockCount) / float64(blocksPerRow)))`.
With a zero divisor the quotient is NaN or infinite and Go leaves the result of
the conversion to `int` to the implementation: `undef`. -/
def ceilQuotient (undef : Int) (blockCount blocksPerRow : Int) : Int :=
  if toFloat64 (blocksPerRow : ℚ) = 0 then undef
  else ⌈toFloat64 (toFloat64 (blockCount : ℚ) / toFloat64 (blocksPerRow : ℚ))⌉

/-- The canvas computed by `encodeHexlishToImage` from the symbol count and the
flag value: the effective `blocksPerRow`, `rows`, `width` and `height`. -/
structure Canvas where
  blocksPerRow : Int
  rows : Int
  width : Int
  height : Int
  deriving DecidableEq, Repr

/-- Lines 106 to 113 of `encodeHexlishToImage`. -/
def canvasOf (undef : Int) (blockCount : Int) (blocksPerRow : Int) : Canvas :=
  let blocksPerRow := if blocksPerRow ≤ 0 then blockCount else blocksPerRow
  let rows := ceilQuotient undef blockCount blocksPerRow
  { blocksPerRow := blocksPerRow
    rows := rows
    width := blocksPerRow * pixelSize
    height := rows * pixelSize }

/-! ## The pixel grid -/

/-- An `image.RGBA` with the bounds `[0,width) x [0,height)`. -/
structure Image where
  width : Int
  height : Int
  pix : Int → Int → RGBA

/-- The test `(Point{x, y}.In(p.Rect))`. -/
def Image.inBounds (img : Image) (x y : Int) : Bool :=
  decide (0 ≤ x) && decide (x < img.width) && decide (0 ≤ y) && decide (y < img.height)

/-- The call `image.NewRGBA(image.Rect(0, 0, width, height))`: every pixel zero.
The encoder passes a width that is never negative; a height that is negative
(possible only with no symbol at all) gives an empty grid here as in Go. -/
def NewRGBA (width height : Int) : Image :=
  { width := width, height := height, pix := fun _ _ => RGBA.zero }

/-- The method `(*image.RGBA).Set`: a point outside the bounds is ignored. -/
def Image.Set (img : Image) (x y : Int) (c : RGBA) : Image :=
  if img.inBounds x y then
    { img with pix := fun px py => if px = x ∧ py = y then c else img.pix px py }
  else img

/-- The method `(*image.RGBA).At`: the zero colour outside the bounds. -/
def Image.At (img : Image) (x y : Int) : RGBA :=
  if img.inBounds x y then img.pix x y else RGBA.zero

/-- The method `RGBA()` of `color.RGBA`: each channel widened to 16 bits
(`r |= r << 8`), as `uint32`. -/
def RGBA.components (c : RGBA) : Nat × Nat × Nat × Nat :=
  ((c.R ||| (c.R <<< 8)) % 2 ^ 32, (c.G ||| (c.G <<< 8)) % 2 ^ 32,
   (c.B ||| (c.B <<< 8)) % 2 ^ 32, (c.A ||| (c.A <<< 8)) % 2 ^ 32)

/-- The conversion `uint8(v >> 8)` of a `uint32`. -/
def high8 (v : Nat) : Nat :=
  (v >>> 8) % 256

/-- Lines 202 and 203 of `decodePNG`: the colour compared with the table, built
from the pixel at `(x, y)` with alpha 255. -/
def sampleColor (img : Image) (x y : Int) : RGBA :=
  let (r, g, b, _) := (img.At x y).components
  { R := high8 r, G := high8 g, B := high8 b, A := 255 }

/-- A document read or written by the codec; its tag is the flag
`useSVG` or `fromSVG`. An SVG document is the list of its lines. -/
inductive Document where
  | png (img : Image)
  | svg (lines : List (List Char))

/-- The iteration orders of `colorMap` met during one decode: one for the
lookup at each sampled pixel, one for the lookup at each line. -/
structure MapOrders where
  atPixel : Int → Int → List (Char × RGBA)
  atLine : Nat → List (Char × RGBA)

/-- Every supplied order is a permutation of the entries of `colorMap`. -/
def MapOrders.Valid (ord : MapOrders) : Prop :=
  (∀ x y, IsOrder (ord.atPixel x y)) ∧ ∀ n, IsOrder (ord.atLine n)

/-- The order of the table as written, at every lookup. -/
def MapOrders.listed : MapOrders :=
  { atPixel := fun _ _ => colorMap, atLine := fun _ => colorMap }

/-- The conversion `byte(k)` of a rune. -/
def byteOf (k : Char) : Nat :=
  k.toNat % 256

/-- The conversion `rune(b)` of a byte. -/
def runeOf (b : Nat) : Char :=
  Char.ofNat b

/-- The statement `for k, v := range colorMap { if v == c { data = append(data, byte(k)); break } }`. -/
def appendSymbol (order : List (Char × RGBA)) (c : RGBA) (data : List Nat) : List Nat :=
  match lookupSymbol order c with
  | some k => data ++ [byteOf k]
  | none => data

/-! ## Raster encoder -/

/-- Function `drawBlock`. -/
def drawBlock (img : Image) (blockIndex blocksPerRow : Int) (hexlish : Nat) :
    Except Panic Image :=
  match getBlockPosition blockIndex blocksPerRow with
  | .error p => .error p
  | .ok (x, y) =>
    let c := colorOf (runeOf hexlish)
    .ok ((List.range 8).foldl
      (fun (im : Image) (dy : Nat) => (List.range 8).foldl
        (fun (im : Image) (dx : Nat) => im.Set (x + (dx : Int)) (y + (dy : Int)) c) im) img)

/-- The loop of `encodePNG`, from index `i` on. -/
def paintBlocks (blocksPerRow : Int) : List Nat → Int → Image → Except Panic Image
  | [], _, img => .ok img
  | b :: rest, i, img =>
    match drawBlock img i blocksPerRow b with
    | .error p => .error p
    | .ok img1 => paintBlocks blocksPerRow rest (i + 1) img1

/-- Function `encodePNG`; `png.Encode` hands the grid over unchanged and
returns `nil`. -/
def encodePNG (data : List Nat) (width height blocksPerRow : Int) :
    Except Panic (Document × GoError) :=
  match paintBlocks blocksPerRow data 0 (NewRGBA width height) with
  | .error p => .error p
  | .ok img => .ok (Document.png img, none)

/-! ## Vector encoder -/

/-- Decimal form of an `int`, as the verb `%d` prints it. -/
def fmtInt (n : Int) : List Char :=
  if n < 0 then '-' :: Nat.toDigits 10 n.natAbs else Nat.toDigits 10 n.toNat

/-- The style string `fmt.Sprintf("fill:rgb(%d,%d,%d)", c.R, c.G, c.B)`. -/
def fillStyle (c : RGBA) : List Char :=
  "fill:rgb(".toList ++ fmtInt c.R ++ ",".toList ++ fmtInt c.G ++ ",".toList ++ fmtInt c.B
    ++ ")".toList

/-- The line written by `canvas.Rect(x, y, w, h, style)` of the svgo library. -/
def svgRect (x y w h : Int) (style : List Char) : List Char :=
  "<rect x=\"".toList ++ fmtInt x ++ "\" y=\"".toList ++ fmtInt y ++ "\" width=\"".toList
    ++ fmtInt w ++ "\" height=\"".toList ++ fmtInt h ++ "\" style=\"".toList ++ style
    ++ "\" />".toList

/-- The lines written by `canvas.Start(width, height)` of the svgo library. -/
def svgStart (width height : Int) : List (List Char) :=
  ["<?xml version=\"1.0\"?>".toList,
   "<!-- Generated by SVGo -->".toList,
   "<svg width=\"".toList ++ fmtInt width ++ "\" height=\"".toList ++ fmtInt height
     ++ "\"".toList,
   "     xmlns=\"http://www.w3.org/2000/svg\"".toList,
   "     xmlns:xlink=\"http://www.w3.org/1999/xlink\">".toList]

/-- The line written by `canvas.End()` of the svgo library. -/
def svgEnd : List (List Char) :=
  ["</svg>".toList]

/-- The loop of `encodeSVG`, from index `i` on: one rectangle line per byte. -/
def rectLines (blocksPerRow : Int) : List Nat → Int → Except Panic (List (List Char))
  | [], _ => .ok []
  | b :: rest, i =>
    match getBlockPosition i blocksPerRow with
    | .error p => .error p
    | .ok (x, y) =>
      let c := colorOf (runeOf b)
      match rectLines blocksPerRow rest (i + 1) with
      | .error p => .error p
      | .ok ls => .ok (svgRect x y pixelSize pixelSize (fillStyle c) :: ls)

/-- Function `encodeSVG`; it returns `nil`. -/
def encodeSVG (data : List Nat) (width height blocksPerRow : Int) :
    Except Panic (Document × GoError) :=
  match rectLines blocksPerRow data 0 with
  | .error p => .error p
  | .ok ls => .ok (Document.svg (svgStart width height ++ ls ++ svgEnd), none)

/-- Function `encodeHexlishToImage` on the text `hexData` read from the input. -/
def encodeHexlishToImage (undef : Int) (hexData : List Char) (blocksPerRow : Int)
    (useSVG : Bool) : Except Panic (Document × GoError) :=
  let data := toBytes (cleanHexData hexData)
  let cv := canvasOf undef (data.length : Int) blocksPerRow
  if useSVG then encodeSVG data cv.width cv.height cv.blocksPerRow
  else encodePNG data cv.width cv.height cv.blocksPerRow

/-! ## Raster decoder -/

/-- The inner loop of `decodePNG` (`for x := ...; x < width; x += pixelSize`) on
row `y`, run for at most `fuel` iterations. -/
def scanRow (ord : MapOrders) (img : Image) (y : Int) : Nat → Int → List Nat → List Nat
  | 0, _, data => data
  | fuel + 1, x, data =>
    if x < img.width then
      scanRow ord img y fuel (x + pixelSize)
        (appendSymbol (ord.atPixel x y) (sampleColor img x y) data)
    else data

/-- The outer loop of `decodePNG` (`for y := ...; y < height; y += pixelSize`),
run for at most `fuel` iterations; the inner loop advances `x` by 8 from 0, so
`width` iterations are enough for it. -/
def scanRows (ord : MapOrders) (img : Image) : Nat → Int → List Nat → List Nat
  | 0, _, data => data
  | fuel + 1, y, data =>
    if y < img.height then
      scanRows ord img fuel (y + pixelSize) (scanRow ord img y img.width.toNat 0 data)
    else data

/-- Function `decodePNG` on the decoded grid; `height` iterations are enough
for the outer loop. -/
def decodePNG (ord : MapOrders) (img : Image) : Except Panic (List Nat × GoError) :=
  .ok (scanRows ord img img.height.toNat 0 [], none)

/-- Number of iterations of a loop `for v := 0; v < limit; v += pixelSize`. -/
def steps (limit : Int) : Nat :=
  ((limit + 7) / 8).toNat

/-- Exactly `n` iterations of the inner loop of `decodePNG`, from column `x`. -/
def scanRowIter (ord : MapOrders) (img : Image) (y : Int) : Nat → Int → List Nat → List Nat
  | 0, _, data => data
  | n + 1, x, data =>
    scanRowIter ord img y n (x + pixelSize)
      (appendSymbol (ord.atPixel x y) (sampleColor img x y) data)

/-- Exactly `n` iterations of the outer loop of `decodePNG`, from row `y`, the
inner loop making `m` iterations each time. -/
def scanRowsIter (ord : MapOrders) (img : Image) (m : Nat) : Nat → Int → List Nat → List Nat
  | 0, _, data => data
  | n + 1, y, data =>
    scanRowsIter ord img m n (y + pixelSize) (scanRowIter ord img y m 0 data)

/-! ## Vector decoder -/

/-- The test `strings.Contains(s, sep)`. -/
def stringsContains : List Char → List Char → Bool
  | [], sep => sep.isEmpty
  | c :: cs, sep => sep.isPrefixOf (c :: cs) || stringsContains cs sep

/-- The scan of `strings.Split` for a non-empty separator: `skip` counts the
runes of a separator still to pass, `cur` holds the current piece reversed. -/
def splitLoop (sep : List Char) : List Char → Nat → List Char → List (List Char)
  | [], _, cur => [cur.reverse]
  | _ :: cs, skip + 1, cur => splitLoop sep cs skip cur
  | c :: cs, 0, cur =>
    if sep.isPrefixOf (c :: cs) then cur.reverse :: splitLoop sep cs (sep.length - 1) []
    else splitLoop sep cs 0 (c :: cur)

/-- The call `strings.Split(s, sep)` for a non-empty separator. -/
def stringsSplit (s sep : List Char) : List (List Char) :=
  splitLoop sep s 0 []

/-- The white space skipped by `fmt.Sscanf` before a number (a line holds no
line feed). -/
def isSpace (c : Char) : Bool :=
  c = ' ' || c = '\t' || c = '\r' || c.toNat = 0x0B || c.toNat = 0x0C || c.toNat = 0x85
    || c.toNat = 0xA0 || c.toNat = 0x1680 || (0x2000 ≤ c.toNat && c.toNat ≤ 0x200A)
    || c.toNat = 0x2028 || c.toNat = 0x2029 || c.toNat = 0x202F || c.toNat = 0x205F
    || c.toNat = 0x3000

/-- Value of a run of decimal digits. -/
def digitsValue (tok : List Char) : Nat :=
  tok.foldl (fun a c => 10 * a + (c.toNat - 48)) 0

/-- Function `stringToInt`: `fmt.Sscanf(s, "%d", &result)` skips white space,
takes an optional sign and the longest run of digits and underscores, and stores
the value when that run is a decimal `int64`; otherwise `result` stays 0. -/
def stringToInt (s : List Char) : Int :=
  let s1 := s.dropWhile isSpace
  let neg := s1.head? = some '-'
  let s2 := if s1.head? = some '-' ∨ s1.head? = some '+' then s1.tail else s1
  let tok := s2.takeWhile (fun c => c.isDigit || c = '_')
  if tok = [] ∨ '_' ∈ tok then 0
  else
    let v : Int := if neg then -(digitsValue tok : Int) else (digitsValue tok : Int)
    if v < -(2 ^ 63) ∨ 2 ^ 63 ≤ v then 0 else v

/-- The conversion `uint8(n)` of an `int`. -/
def uint8 (n : Int) : Nat :=
  (n % 256).toNat

/-- An index expression `xs[i]`: out of range is a run-time panic. -/
def index {α : Type} (xs : List α) (i : Nat) : Except Panic α :=
  match xs.get? i with
  | some x => .ok x
  | none => .error Panic.indexOutOfRange

/-- Lines 222 to 227 of `decodeSVG`: the colour read from the text that follows
the first `fill:rgb(` of a line. -/
def parseColor (part : List Char) : Except Panic RGBA :=
  match index (stringsSplit part ")".toList) 0 with
  | .error p => .error p
  | .ok colorStr =>
    let rgb := stringsSplit colorStr ",".toList
    match index rgb 0, index rgb 1, index rgb 2 with
    | .ok s0, .ok s1, .ok s2 =>
      .ok { R := uint8 (stringToInt s0), G := uint8 (stringToInt s1),
            B := uint8 (stringToInt s2), A := 255 }
    | _, _, _ => .error Panic.indexOutOfRange

/-- The body of the loop of `decodeSVG` for one line, with the iteration order
`order` of the table. -/
def decodeLine (order : List (Char × RGBA)) (line : List Char) (data : List Nat) :
    Except Panic (List Nat) :=
  if stringsContains line "fill:rgb(".toList then
    match index (stringsSplit line "fill:rgb(".toList) 1 with
    | .error p => .error p
    | .ok part =>
      match parseColor part with
      | .error p => .error p
      | .ok c => .ok (appendSymbol order c data)
  else .ok data

/-- The loop of `decodeSVG` over the lines the scanner yields, from line
number `n` on. -/
def decodeLines (ord : MapOrders) : List (List Char) → Nat → List Nat → Except Panic (List Nat)
  | [], _, data => .ok data
  | line :: rest, n, data =>
    match decodeLine (ord.atLine n) line data with
    | .error p => .error p
    | .ok data1 => decodeLines ord rest (n + 1) data1

/-- Function `decodeSVG` on the lines of the document; the scanner reports no
error. -/
def decodeSVG (ord : MapOrders) (lines : List (List Char)) : Except Panic (List Nat × GoError) :=
  match decodeLines ord lines 0 [] with
  | .error p => .error p
  | .ok data => .ok (data, none)

/-! ## Decoder entry point -/

/-- Function `decodeToHexlish`: the bytes written to the output and the error
returned. -/
def decodeToHexlish (ord : MapOrders) (r : Document) : Except Panic (List Nat × GoError) :=
  match (match r with
    | .svg lines => decodeSVG ord lines
    | .png img => decodePNG ord img) with
  | .error p => .error p
  | .ok (_, some e) => .ok ([], some e)
  | .ok (data, none) => .ok (trimPadding data ++ [10], none)

/-! ## Specification predicates -/

/-- The text of a rectangle line before its style: `<rect x=".." .. style="`. -/
def rectHead (x y w h : Int) : List Char :=
  "<rect x=\"".toList ++ fmtInt x ++ "\" y=\"".toList ++ fmtInt y ++ "\" width=\"".toList
    ++ fmtInt w ++ "\" height=\"".toList ++ fmtInt h ++ "\" style=\"".toList

/-- The text of a rectangle line after `fill:rgb(`: the three channels, the
closing bracket and the end of the element. -/
def colorTail (c : RGBA) : List Char :=
  fmtInt c.R ++ ",".toList ++ fmtInt c.G ++ ",".toList ++ fmtInt c.B ++ ")".toList
    ++ "\" />".toList

/-- The grid `img`, `wn` blocks wide, shows the bytes `data`: block `k` has the
colour of byte `k`, and a block past the end of `data` is zero. -/
def Shows (img : Image) (data : List Nat) (wn : Nat) : Prop :=
  img.width = (wn : Int) * 8 ∧
  ∀ px py, img.inBounds px py = true →
    img.At px py =
      if py / 8 * (wn : Int) + px / 8 < (data.length : Int) then
        colorOf (runeOf (data.getD (py / 8 * (wn : Int) + px / 8).toNat 0))
      else RGBA.zero

/-- The origins of the blocks sampled by `decodePNG`, in the order of the
scan: row by row, and from left to right in a row. -/
def blockOrigins (img : Image) : List (Int × Int) :=
  (List.range (steps img.height)).flatMap (fun (r : Nat) =>
    (List.range (steps img.width)).map (fun (c : Nat) => ((c : Int) * 8, (r : Int) * 8)))

/-- The bytes that `decodePNG` appends for a list of sampled origins: the
symbol of every origin whose colour is registered. -/
def symbolsAt (img : Image) (origins : List (Int × Int)) : List Nat :=
  (origins.filterMap (fun p => lookupSymbol colorMap (sampleColor img p.1 p.2))).map byteOf

/-- A colour is registered when it is the colour of an entry of `colorMap`. -/
def registered (c : RGBA) : Bool :=
  decide (c ∈ colorMap.map Prod.snd)

/-- The slice `rgb` of `decodeSVG` for a line that contains `fill:rgb(`: the
pieces, split at commas, of the text between the first `fill:rgb(` and the
next closing bracket. -/
def colorParts (line : List Char) : List (List Char) :=
  match index (stringsSplit line "fill:rgb(".toList) 1 with
  | .error _ => []
  | .ok part =>
    match index (stringsSplit part ")".toList) 0 with
    | .error _ => []
    | .ok colorStr => stringsSplit colorStr ",".toList

theorem find?_perm_of_unique {α : Type} (p : α → Bool) {l l' : List α} (hp : l.Perm l')
    (hu : ∀ a ∈ l, ∀ b ∈ l, p a = true → p b = true → a = b) :
    l'.find? p = l.find? p := by
  cases h : l.find? p with
  | none =>
    rw [List.find?_eq_none] at h ⊢
    intro x hx
    exact h x (hp.mem_iff.mpr hx)
  | some a =>
    have ha : a ∈ l := List.mem_of_find?_eq_some h
    have hpa : p a = true := List.find?_some h
    cases h' : l'.find? p with
    | none =>
      rw [List.find?_eq_none] at h'
      exact absurd hpa (h' a (hp.mem_iff.mp ha))
    | some b =>
      have hb : b ∈ l := hp.mem_iff.mpr (List.mem_of_find?_eq_some h')
      rw [hu a ha b hb hpa (List.find?_some h')]

theorem colorMap_values_unique :
    ∀ a ∈ colorMap, ∀ b ∈ colorMap, a.2 = b.2 → a = b := by
  decide

theorem lookupSymbol_order (order : List (Char × RGBA)) (h : IsOrder order) (c : RGBA) :
    lookupSymbol order c = lookupSymbol colorMap c := by
  unfold lookupSymbol
  rw [find?_perm_of_unique _ h.symm]
  intro a ha b hb h1 h2
  apply colorMap_values_unique a ha b hb
  rw [of_decide_eq_true h1, of_decide_eq_true h2]

/-- C3: `colorMap` is a bijection between the 16 symbols and 16 colours: its
keys are the 16 symbols, no key and no colour occurs twice; for every symbol
`s` the lookup loop applied to `colorMap[s]` returns `s` in every iteration
order of the map; and every registered colour `c` is found by the loop, in
every iteration order, under a symbol whose colour is `c`. -/
theorem colorMap_bijection :
    colorMap.map Prod.fst = alphabet ∧ alphabet.length = 16 ∧ alphabet.Nodup ∧
    (colorMap.map Prod.snd).length = 16 ∧ (colorMap.map Prod.snd).Nodup ∧
    (∀ s ∈ alphabet, ∀ t ∈ alphabet, colorOf s = colorOf t → s = t) ∧
    (∀ s ∈ alphabet, ∀ order, IsOrder order → lookupSymbol order (colorOf s) = some s) ∧
    (∀ c ∈ colorMap.map Prod.snd, ∀ order, IsOrder order →
      ∃ s ∈ alphabet, lookupSymbol order c = some s ∧ colorOf s = c) := by
  refine ⟨by decide, by decide, by decide, by decide, by decide, by decide, ?_, ?_⟩
  · intro s hs order ho
    rw [lookupSymbol_order order ho]
    revert s
    decide
  · intro c hc order ho
    rw [lookupSymbol_order order ho]
    revert c
    decide

/-- C3, at an instance: with the table visited in reverse, the loop applied to
the colour of `V` returns `V`. -/
theorem colorMap_bijection_witness :
    lookupSymbol colorMap.reverse (colorOf 'V') = some 'V' :=
  colorMap_bijection.2.2.2.2.2.2.1 'V' (by decide) colorMap.reverse (List.reverse_perm _)

theorem lookup_isSome_iff {β : Type} (k : Char) (l : List (Char × β)) :
    (l.lookup k).isSome = true ↔ k ∈ l.map Prod.fst := by
  induction l with
  | nil => simp
  | cons kv rest ih =>
    obtain ⟨a, b⟩ := kv
    by_cases h : k = a
    · subst h
      simp [List.lookup]
    · have h' : (k == a) = false := by simpa using h
      simp [List.lookup, h', ih, h]

/-- C6: `hexToHexlish` is defined on exactly the 22 characters `0-9`, `A-F`,
`a-f` and gives a lower-case digit the symbol of its upper-case form (`f` and
`F` both give `V`); `hexlishToHex` is defined on exactly the 16 symbols; for
every hex digit `d`, `hexlishToHex[hexToHexlish[d]]` is the upper-case form of
`d` (`V` gives `F`); and for every symbol `s`, `hexToHexlish[hexlishToHex[s]]`
is `s`. -/
theorem hex_tables :
    (∀ d : Char, (hexToHexlish.lookup d).isSome = true ↔ d ∈ hexDigits) ∧
    hexDigits.length = 22 ∧ hexDigits.Nodup ∧
    (∀ s : Char, (hexlishToHex.lookup s).isSome = true ↔ s ∈ alphabet) ∧
    alphabet.length = 16 ∧ alphabet.Nodup ∧
    (∀ d ∈ hexDigits, hexToHexlish.lookup d = hexToHexlish.lookup d.toUpper) ∧
    hexToHexlish.lookup 'f' = some 'V' ∧ hexToHexlish.lookup 'F' = some 'V' ∧
    hexlishToHex.lookup 'V' = some 'F' ∧
    (∀ d ∈ hexDigits,
      (hexToHexlish.lookup d).bind (fun s => hexlishToHex.lookup s) = some d.toUpper) ∧
    (∀ s ∈ alphabet,
      (hexlishToHex.lookup s).bind (fun d => hexToHexlish.lookup d) = some s) := by
  refine ⟨?_, by decide, by decide, ?_, by decide, by decide, by decide, by decide, by decide,
    by decide, by decide, by decide⟩
  · intro d
    rw [lookup_isSome_iff]
    rfl
  · intro s
    rw [lookup_isSome_iff]
    rfl

/-- C6, at an instance: the digit `b` is in the domain of `hexToHexlish`. -/
theorem hex_tables_witness : (hexToHexlish.lookup 'b').isSome = true :=
  (hex_tables.1 'b').mpr (by decide)

/-- C7: the normalized stream is the input with every space, line feed and
carriage return removed and every other character kept, in order; a tab and a
character outside the alphabet are kept; `"A C\nE\r"` normalizes to `"ACE"`;
and normalizing twice equals normalizing once. -/
theorem cleanHexData_spec (s : List Char) :
    cleanHexData s = s.filter (fun r => decide (r ≠ ' ' ∧ r ≠ '\n' ∧ r ≠ '\r')) ∧
    cleanHexData "A C\nE\r".toList = "ACE".toList ∧
    cleanHexData "\tA Z".toList = "\tAZ".toList ∧
    cleanHexData (cleanHexData s) = cleanHexData s := by
  have h1 : ∀ t : List Char,
      cleanHexData t = t.filter (fun r => decide (r ≠ ' ' ∧ r ≠ '\n' ∧ r ≠ '\r')) := by
    intro t
    induction t with
    | nil => rfl
    | cons c cs ih =>
      unfold cleanHexData stringsMap at ih ⊢
      by_cases h : c = ' ' ∨ c = '\n' ∨ c = '\r'
      · have hc : cleanRune c = none := by simp [cleanRune, h]
        have hf : decide (c ≠ ' ' ∧ c ≠ '\n' ∧ c ≠ '\r') = false := by
          simp only [decide_eq_false_iff_not]; tauto
        rw [List.filterMap_cons, hc, List.filter_cons, hf]
        simpa using ih
      · have hc : cleanRune c = some c := by simp [cleanRune, h]
        have hf : decide (c ≠ ' ' ∧ c ≠ '\n' ∧ c ≠ '\r') = true := by
          simp only [decide_eq_true_eq]; tauto
        rw [List.filterMap_cons, hc, List.filter_cons, hf]
        simpa using ih
  refine ⟨h1 s, by decide, by decide, ?_⟩
  rw [h1 (cleanHexData s), h1 s, List.filter_filter]
  simp

theorem getBlockPosition_eq (i w : Int) (hi : 0 ≤ i) (hw : 1 ≤ w) :
    getBlockPosition i w = .ok ((i % w) * pixelSize, (i / w) * pixelSize) := by
  have hw0 : w ≠ 0 := by omega
  unfold getBlockPosition
  rw [if_neg hw0, Int.tmod_eq_emod hi (by omega), Int.tdiv_eq_ediv hi (by omega)]

/-- C9: for every index `i >= 0` and row width `w >= 1`, `getBlockPosition(i, w)`
returns `((i mod w) * pixelSize, (i div w) * pixelSize)`; for `i` in `[0, w)`
that is `(i * pixelSize, 0)`, so the row is 0 and the x coordinate is strictly
increasing in `i`; and `getBlockPosition(w, w)` is `(0, pixelSize)`. -/
theorem getBlockPosition_geometry (i w : Int) (hi : 0 ≤ i) (hw : 1 ≤ w) :
    getBlockPosition i w = .ok ((i % w) * pixelSize, (i / w) * pixelSize) ∧
    (i < w → getBlockPosition i w = .ok (i * pixelSize, 0)) ∧
    (∀ j : Int, i < j → j < w →
      ∃ xi xj : Int, getBlockPosition i w = .ok (xi, 0) ∧ getBlockPosition j w = .ok (xj, 0) ∧
        xi < xj) ∧
    getBlockPosition w w = .ok (0, pixelSize) := by
  refine ⟨getBlockPosition_eq i w hi hw, ?_, ?_, ?_⟩
  · intro h
    rw [getBlockPosition_eq i w hi hw, Int.emod_eq_of_lt hi h, Int.ediv_eq_zero_of_lt hi h]
    simp
  · intro j hij hjw
    refine ⟨i * pixelSize, j * pixelSize, ?_, ?_, ?_⟩
    · rw [getBlockPosition_eq i w hi hw, Int.emod_eq_of_lt hi (by omega),
        Int.ediv_eq_zero_of_lt hi (by omega)]
      simp
    · rw [getBlockPosition_eq j w (by omega) hw, Int.emod_eq_of_lt (by omega) hjw,
        Int.ediv_eq_zero_of_lt (by omega) hjw]
      simp
    · simp only [pixelSize]; omega
  · rw [getBlockPosition_eq w w (by omega) hw, Int.emod_self, Int.ediv_self (by omega)]
    simp

/-- C9, at an instance: index 5 in rows of 4 blocks. -/
theorem getBlockPosition_geometry_witness :
    getBlockPosition 5 4 = .ok ((5 % 4) * pixelSize, (5 / 4) * pixelSize) :=
  (getBlockPosition_geometry 5 4 (by decide) (by decide)).1

theorem trimLoop_spec (fuel : Nat) (d : List Nat) (hf : d.length ≤ fuel) :
    ∃ k, d = trimLoop fuel d ++ List.replicate k 0 ∧
      (trimLoop fuel d = [] ∨ ∃ b, (trimLoop fuel d).getLast? = some b ∧ b ≠ 0) := by
  induction fuel generalizing d with
  | zero =>
    have : d = [] := List.length_eq_zero.mp (by omega)
    subst this
    exact ⟨0, by simp [trimLoop], Or.inl rfl⟩
  | succ n ih =>
    unfold trimLoop
    split
    · rename_i h
      obtain ⟨hlen, hlast⟩ := h
      have hne : d ≠ [] := by intro h0; subst h0; simp at hlen
      have hd : d = d.dropLast ++ [0] := by
        have := List.dropLast_append_getLast? 0 (by simpa using hlast)
        exact this.symm
      obtain ⟨k, hk, hk2⟩ := ih d.dropLast (by rw [List.length_dropLast]; omega)
      refine ⟨k + 1, ?_, hk2⟩
      rw [List.replicate_succ']
      rw [← List.append_assoc, ← hk]
      exact hd
    · rename_i h
      refine ⟨0, by simp, ?_⟩
      cases hl : d.getLast? with
      | none => left; exact List.getLast?_eq_none_iff.mp hl
      | some b =>
        right
        refine ⟨b, rfl, ?_⟩
        intro hb
        subst hb
        apply h
        refine ⟨?_, hl⟩
        cases d with
        | nil => simp at hl
        | cons _ _ => simp

/-! ## The float64 row count is exact -/

theorem roundHalfEven_intCast (z : Int) : roundHalfEven (z : ℚ) = z := by
  unfold roundHalfEven
  simp

theorem roundHalfEven_le {q : ℚ} {z : Int} (h : q ≤ z) : roundHalfEven q ≤ z := by
  have hfl : ⌊q⌋ ≤ z := Int.floor_le_floor h |>.trans (by simp)
  unfold roundHalfEven
  split
  · exact hfl
  · rename_i h1
    have hlt : (⌊q⌋ : ℚ) < q := by linarith
    have hz : (⌊q⌋ : ℚ) < z := lt_of_lt_of_le hlt h
    have hz' : ⌊q⌋ < z := by exact_mod_cast hz
    split
    · omega
    · split
      · exact hfl
      · omega

theorem abs_roundHalfEven_sub (q : ℚ) : |(roundHalfEven q : ℚ) - q| ≤ 1 / 2 := by
  have h1 := Int.floor_le q
  have h2 := Int.lt_floor_add_one q
  unfold roundHalfEven
  rw [abs_le]
  split
  · constructor <;> linarith
  · split
    · push_cast; constructor <;> linarith
    · split
      · constructor <;> linarith
      · push_cast; constructor <;> linarith

theorem roundPos_sub (q : ℚ) (hq : 0 < q) : |roundPos q - q| ≤ q / 2 ^ 53 := by
  have he := Int.zpow_log_le_self (b := 2) (by norm_num) hq
  have h2 : (0 : ℚ) < 2 := by norm_num
  have hpos : (0 : ℚ) < (2 : ℚ) ^ (Int.log 2 q - 52) := zpow_pos h2 _
  have hx : q = q * (2 : ℚ) ^ (52 - Int.log 2 q) * (2 : ℚ) ^ (Int.log 2 q - 52) := by
    rw [mul_assoc, ← zpow_add₀ (by norm_num : (2 : ℚ) ≠ 0)]
    simp
  have hr := abs_roundHalfEven_sub (q * (2 : ℚ) ^ (52 - Int.log 2 q))
  have key : roundPos q - q =
      ((roundHalfEven (q * (2 : ℚ) ^ (52 - Int.log 2 q)) : ℚ) - q * (2 : ℚ) ^ (52 - Int.log 2 q))
        * (2 : ℚ) ^ (Int.log 2 q - 52) := by
    unfold roundPos
    rw [sub_mul, ← hx]
  rw [key, abs_mul, abs_of_pos hpos]
  have h53 : (2 : ℚ) ^ (Int.log 2 q - 52) = (2 : ℚ) ^ (Int.log 2 q) / 2 ^ 52 := by
    rw [zpow_sub₀ (by norm_num : (2 : ℚ) ≠ 0)]
    norm_num
  calc _ ≤ 1 / 2 * (2 : ℚ) ^ (Int.log 2 q - 52) := by
        exact mul_le_mul_of_nonneg_right hr hpos.le
    _ = (2 : ℚ) ^ (Int.log 2 q) / 2 ^ 53 := by rw [h53]; ring
    _ ≤ q / 2 ^ 53 := by
        apply div_le_div_of_nonneg_right _ (by positivity)
        exact_mod_cast he

theorem roundPos_pos (q : ℚ) (hq : 0 < q) : 0 < roundPos q := by
  have h := roundPos_sub q hq
  rw [abs_le] at h
  have : q / 2 ^ 53 < q := by
    rw [div_lt_iff₀ (by positivity)]
    nlinarith
  linarith [h.1]

theorem log_le_52 (q : ℚ) (hq : 0 < q) (h : q < 2 ^ 53) : Int.log 2 q ≤ 52 := by
  have he := Int.zpow_log_le_self (b := 2) (by norm_num) hq
  by_contra hcon
  push_neg at hcon
  have h53 : (53 : Int) ≤ Int.log 2 q := by omega
  have : (2 : ℚ) ^ (53 : Int) ≤ (2 : ℚ) ^ (Int.log 2 q) :=
    zpow_le_zpow_right₀ (by norm_num) h53
  have he' : (2 : ℚ) ^ (Int.log 2 q) ≤ q := by exact_mod_cast he
  have : (2 : ℚ) ^ (53 : Int) ≤ q := this.trans he'
  norm_num at this
  linarith

theorem scale_eq_intCast (q : ℚ) (hq : 0 < q) (h : q < 2 ^ 53) :
    (2 : ℚ) ^ (52 - Int.log 2 q) = (((2 : Int) ^ (52 - Int.log 2 q).toNat : Int) : ℚ) := by
  have hle := log_le_52 q hq h
  have : (52 - Int.log 2 q) = ((52 - Int.log 2 q).toNat : Int) := by
    rw [Int.toNat_of_nonneg]; omega
  conv_lhs => rw [this]
  rw [zpow_natCast]
  push_cast
  rfl

theorem roundPos_le_int (q : ℚ) (k : Int) (hq : 0 < q) (hqk : q ≤ k) (hk : k < 2 ^ 53) :
    roundPos q ≤ k := by
  have hk' : (k : ℚ) < 2 ^ 53 := by exact_mod_cast hk
  have hlt : q < 2 ^ 53 := lt_of_le_of_lt hqk hk'
  have hs := scale_eq_intCast q hq hlt
  have h2 : (0 : ℚ) < 2 := by norm_num
  have hpos : (0 : ℚ) < (2 : ℚ) ^ (Int.log 2 q - 52) := zpow_pos h2 _
  have hpos' : (0 : ℚ) < (2 : ℚ) ^ (52 - Int.log 2 q) := zpow_pos h2 _
  have hx : q * (2 : ℚ) ^ (52 - Int.log 2 q) ≤
      ((k * (2 : Int) ^ (52 - Int.log 2 q).toNat : Int) : ℚ) := by
    rw [Int.cast_mul, ← hs]
    exact mul_le_mul_of_nonneg_right hqk hpos'.le
  have hr := roundHalfEven_le hx
  have hr' : (roundHalfEven (q * (2 : ℚ) ^ (52 - Int.log 2 q)) : ℚ) ≤
      (k : ℚ) * (2 : ℚ) ^ (52 - Int.log 2 q) := by
    conv_rhs => rw [hs, ← Int.cast_mul]
    exact_mod_cast hr
  unfold roundPos
  calc _ ≤ (k : ℚ) * (2 : ℚ) ^ (52 - Int.log 2 q) * (2 : ℚ) ^ (Int.log 2 q - 52) :=
        mul_le_mul_of_nonneg_right hr' hpos.le
    _ = k := by
        rw [mul_assoc, ← zpow_add₀ (by norm_num : (2 : ℚ) ≠ 0)]
        simp

theorem roundPos_intCast (n : Int) (hn : 1 ≤ n) (h : n < 2 ^ 53) : roundPos (n : ℚ) = n := by
  have hq : (0 : ℚ) < n := by exact_mod_cast (by omega : 0 < n)
  have hlt : (n : ℚ) < 2 ^ 53 := by exact_mod_cast h
  have hs := scale_eq_intCast n hq hlt
  unfold roundPos
  rw [hs, ← Int.cast_mul, roundHalfEven_intCast, Int.cast_mul, ← hs, mul_assoc,
    ← zpow_add₀ (by norm_num : (2 : ℚ) ≠ 0)]
  simp

theorem toFloat64_intCast (n : Int) (hn : 0 ≤ n) (h : n < 2 ^ 53) : toFloat64 (n : ℚ) = n := by
  unfold toFloat64
  rcases eq_or_lt_of_le hn with h0 | h0
  · subst h0; simp
  · have hq : (0 : ℚ) < n := by exact_mod_cast h0
    rw [if_neg hq.ne', if_neg (not_lt.mpr hq.le)]
    exact roundPos_intCast n (by omega) h

theorem toFloat64_pos (q : ℚ) (hq : 0 < q) : toFloat64 q = roundPos q := by
  unfold toFloat64
  rw [if_neg hq.ne', if_neg (not_lt.mpr hq.le)]

theorem toFloat64_ne_zero (w : Int) (hw : 1 ≤ w) : toFloat64 (w : ℚ) ≠ 0 := by
  have hq : (0 : ℚ) < w := by exact_mod_cast (by omega : 0 < w)
  rw [toFloat64_pos _ hq]
  exact (roundPos_pos _ hq).ne'

theorem ceilQuotient_zero (undef w : Int) (hw : 1 ≤ w) : ceilQuotient undef 0 w = 0 := by
  unfold ceilQuotient
  rw [if_neg (toFloat64_ne_zero w hw)]
  simp [toFloat64]

theorem ceilDiv_bounds (N w : Int) (hw : 1 ≤ w) :
    ((N + w - 1) / w - 1) * w + 1 ≤ N ∧ N ≤ (N + w - 1) / w * w := by
  have h1 := Int.ediv_mul_le (N + w - 1) (by omega : w ≠ 0)
  have h2 := Int.lt_ediv_add_one_mul_self (N + w - 1) (by omega : 0 < w)
  constructor
  · linarith
  · linarith

theorem ceilQuotient_eq (undef N w : Int) (hN : 1 ≤ N) (hN2 : N < 2 ^ 53) (hw : 1 ≤ w) :
    ceilQuotient undef N w = (N + w - 1) / w := by
  obtain ⟨hc1, hc2⟩ := ceilDiv_bounds N w hw
  have hNq : (0 : ℚ) < N := by exact_mod_cast (by omega : 0 < N)
  have hwq : (0 : ℚ) < w := by exact_mod_cast (by omega : 0 < w)
  have hN2q : (N : ℚ) < 2 ^ 53 := by exact_mod_cast hN2
  unfold ceilQuotient
  rw [if_neg (toFloat64_ne_zero w hw), toFloat64_intCast N (by omega) hN2]
  rcases lt_or_le w (2 ^ 53) with hw2 | hw2
  · rw [toFloat64_intCast w (by omega) hw2]
    have hq : (0 : ℚ) < (N : ℚ) / w := div_pos hNq hwq
    rw [toFloat64_pos _ hq, Int.ceil_eq_iff]
    have hcN : (N + w - 1) / w ≤ N := by
      by_contra hcon
      push_neg at hcon
      have : N * w < ((N + w - 1) / w - 1) * w + 1 := by nlinarith
      nlinarith
    have hupper : (N : ℚ) / w ≤ (((N + w - 1) / w : Int) : ℚ) := by
      rw [div_le_iff₀ hwq]
      exact_mod_cast hc2
    have hlower : ((((N + w - 1) / w : Int) : ℚ) - 1) + 1 / w ≤ (N : ℚ) / w := by
      rw [← sub_nonneg]
      have : (N : ℚ) / w - (((((N + w - 1) / w : Int) : ℚ) - 1) + 1 / w) =
          ((N : ℚ) - (((((N + w - 1) / w : Int) : ℚ) - 1) * w + 1)) / w := by
        field_simp
      rw [this]
      apply div_nonneg _ hwq.le
      rw [sub_nonneg]
      exact_mod_cast hc1
    have herr := roundPos_sub _ hq
    rw [abs_le] at herr
    have hsmall : (N : ℚ) / w / 2 ^ 53 < 1 / w := by
      rw [div_div, div_lt_div_iff₀ (by positivity) hwq]
      nlinarith
    constructor
    · linarith [herr.1]
    · exact roundPos_le_int _ _ hq hupper (by omega)
  · have hw2q : ((2 : ℚ) ^ 53) ≤ w := by exact_mod_cast hw2
    rw [toFloat64_pos _ hwq]
    have hfw := roundPos_sub _ hwq
    rw [abs_le] at hfw
    have hfwpos := roundPos_pos _ hwq
    have hge : (N : ℚ) ≤ roundPos w := by
      have h1 : (N : ℚ) ≤ 2 ^ 53 - 1 := by
        have : N ≤ 2 ^ 53 - 1 := by omega
        exact_mod_cast this
      have h2 : (2 : ℚ) ^ 53 - 1 ≤ (w : ℚ) - w / 2 ^ 53 := by
        have : (w : ℚ) - w / 2 ^ 53 = w * (1 - 1 / 2 ^ 53) := by ring
        rw [this]
        have h3 : (2 : ℚ) ^ 53 - 1 = 2 ^ 53 * (1 - 1 / 2 ^ 53) := by norm_num
        rw [h3]
        exact mul_le_mul_of_nonneg_right hw2q (by norm_num)
      linarith [hfw.1]
    have hq : (0 : ℚ) < (N : ℚ) / roundPos w := div_pos hNq hfwpos
    have hq1 : (N : ℚ) / roundPos w ≤ ((1 : Int) : ℚ) := by
      rw [div_le_iff₀ hfwpos]
      simpa using hge
    rw [toFloat64_pos _ hq]
    have hc : (N + w - 1) / w = 1 := by
      have hNw : N ≤ w := by omega
      have hlt : (N + w - 1) / w < 2 := Int.ediv_lt_of_lt_mul (by omega) (by omega)
      have hge1 : 1 ≤ (N + w - 1) / w := Int.le_ediv_of_mul_le (by omega) (by omega)
      omega
    rw [hc, Int.ceil_eq_iff]
    constructor
    · simpa using roundPos_pos _ hq
    · exact roundPos_le_int _ 1 hq hq1 (by norm_num)

theorem ceilDiv_eq_ceil (N w : Int) (hw : 1 ≤ w) : (N + w - 1) / w = ⌈(N : ℚ) / (w : ℚ)⌉ := by
  obtain ⟨hc1, hc2⟩ := ceilDiv_bounds N w hw
  have hwq : (0 : ℚ) < w := by exact_mod_cast (by omega : 0 < w)
  symm
  rw [Int.ceil_eq_iff]
  constructor
  · rw [lt_div_iff₀ hwq]
    have : ((N + w - 1) / w - 1) * w < N := by omega
    exact_mod_cast this
  · rw [div_le_iff₀ hwq]
    exact_mod_cast hc2

theorem log_two_pow53 : Int.log 2 ((2 : ℚ) ^ 53) = 53 := by
  have := Int.log_zpow (R := ℚ) (b := 2) (by norm_num) 53
  rw [← this]
  norm_num

theorem log_two_pow53_succ : Int.log 2 ((2 : ℚ) ^ 53 + 1) = 53 := by
  have h1 : (1 : ℚ) ≤ (2 : ℚ) ^ 53 + 1 := by norm_num
  rw [Int.log_of_one_le_right 2 h1]
  have hfl : ⌊(2 : ℚ) ^ 53 + 1⌋₊ = 2 ^ 53 + 1 := by
    have : ((2 : ℚ) ^ 53 + 1) = ((2 ^ 53 + 1 : ℕ) : ℚ) := by norm_num
    rw [this, Nat.floor_natCast]
  rw [hfl]
  have : Nat.log 2 (2 ^ 53 + 1) = 53 :=
    Nat.log_eq_of_pow_le_of_lt_pow (by norm_num) (by norm_num)
  rw [this]
  rfl

/-- The bound on the symbol count cannot be dropped from the float64 model:
with `2^53 + 1` symbols in rows of `2^53` the quotient rounds to 1, and the
code would compute one row where the ceiling is two. No slice is that long. -/
theorem ceilQuotient_inexact (undef : Int) :
    ceilQuotient undef (2 ^ 53 + 1) (2 ^ 53) = 1 ∧
    ⌈(((2 : Int) ^ 53 + 1 : Int) : ℚ) / (((2 : Int) ^ 53 : Int) : ℚ)⌉ = 2 := by
  constructor
  · have hw : toFloat64 (((2 : Int) ^ 53 : Int) : ℚ) = 2 ^ 53 := by
      have hpos : (0 : ℚ) < (((2 : Int) ^ 53 : Int) : ℚ) := by norm_num
      rw [toFloat64_pos _ hpos]
      unfold roundPos
      have e : ((((2 : Int) ^ 53 : Int) : ℚ)) = (2 : ℚ) ^ 53 := by norm_num
      rw [e, log_two_pow53]
      have hx : (2 : ℚ) ^ 53 * (2 : ℚ) ^ ((52 : Int) - 53) = (((2 : Int) ^ 52 : Int) : ℚ) := by
        norm_num
      rw [hx, roundHalfEven_intCast]
      norm_num
    have hn : toFloat64 (((2 : Int) ^ 53 + 1 : Int) : ℚ) = 2 ^ 53 := by
      have hpos : (0 : ℚ) < (((2 : Int) ^ 53 + 1 : Int) : ℚ) := by norm_num
      rw [toFloat64_pos _ hpos]
      unfold roundPos
      have e : ((((2 : Int) ^ 53 + 1 : Int) : ℚ)) = (2 : ℚ) ^ 53 + 1 := by norm_num
      rw [e, log_two_pow53_succ]
      have hx : ((2 : ℚ) ^ 53 + 1) * (2 : ℚ) ^ ((52 : Int) - 53) = (2 : ℚ) ^ 52 + 1 / 2 := by
        norm_num
      rw [hx]
      have hfl : ⌊(2 : ℚ) ^ 52 + 1 / 2⌋ = 2 ^ 52 := by
        rw [Int.floor_eq_iff]
        constructor <;> norm_num
      have hr : roundHalfEven ((2 : ℚ) ^ 52 + 1 / 2) = 2 ^ 52 := by
        unfold roundHalfEven
        rw [hfl]
        norm_num
      rw [hr]
      norm_num
    unfold ceilQuotient
    rw [hw, hn, if_neg (by norm_num)]
    have h1 : (2 : ℚ) ^ 53 / 2 ^ 53 = ((1 : Int) : ℚ) := by norm_num
    rw [h1, toFloat64_intCast 1 (by norm_num) (by norm_num)]
    simp
  · rw [← ceilDiv_eq_ceil _ _ (by norm_num)]
    decide

@[simp] theorem Image.Set_width (img : Image) (x y : Int) (c : RGBA) :
    (img.Set x y c).width = img.width := by
  unfold Image.Set; split <;> rfl

@[simp] theorem Image.Set_height (img : Image) (x y : Int) (c : RGBA) :
    (img.Set x y c).height = img.height := by
  unfold Image.Set; split <;> rfl

theorem Image.Set_inBounds (img : Image) (x y : Int) (c : RGBA) (px py : Int) :
    (img.Set x y c).inBounds px py = img.inBounds px py := by
  simp [Image.inBounds]

theorem Image.At_Set (img : Image) (x y : Int) (c : RGBA) (px py : Int) :
    (img.Set x y c).At px py =
      if (px = x ∧ py = y) ∧ img.inBounds px py = true then c else img.At px py := by
  unfold Image.At
  rw [Image.Set_inBounds]
  unfold Image.Set
  by_cases hb : img.inBounds x y = true
  · rw [if_pos hb]
    by_cases hp : img.inBounds px py = true
    · simp [hp]
    · simp [hp]
  · rw [if_neg hb]
    by_cases hxy : px = x ∧ py = y
    · obtain ⟨h1, h2⟩ := hxy
      subst h1 h2
      simp [hb]
    · simp [hxy]

theorem ite_merge_row (A B C D : Prop) [Decidable A] [Decidable B] [Decidable C] [Decidable D]
    (c e : RGBA) :
    (if (B ∧ D) ∧ A then c else if (C ∧ B) ∧ A then c else e) =
      if (B ∧ (C ∨ D)) ∧ A then c else e := by
  by_cases A <;> by_cases B <;> by_cases C <;> by_cases D <;> simp [*]

theorem ite_merge_block (A B C D : Prop) [Decidable A] [Decidable B] [Decidable C]
    [Decidable D] (c e : RGBA) :
    (if (D ∧ C) ∧ A then c else if (B ∧ C) ∧ A then c else e) =
      if ((B ∨ D) ∧ C) ∧ A then c else e := by
  by_cases A <;> by_cases B <;> by_cases C <;> by_cases D <;> simp [*]

/-- One row of a block: the inner loop of `drawBlock`. -/
theorem rowFold_spec (c : RGBA) (x y : Int) (L : List Nat) (img : Image) :
    (L.foldl (fun (im : Image) (dx : Nat) => im.Set (x + (dx : Int)) y c) img).width
      = img.width ∧
    (L.foldl (fun (im : Image) (dx : Nat) => im.Set (x + (dx : Int)) y c) img).height
      = img.height ∧
    ∀ px py, (L.foldl (fun (im : Image) (dx : Nat) => im.Set (x + (dx : Int)) y c) img).At px py =
      if (py = y ∧ ∃ dx ∈ L, px = x + (dx : Int)) ∧ img.inBounds px py = true then c
      else img.At px py := by
  induction L generalizing img with
  | nil => simp
  | cons d rest ih =>
    simp only [List.foldl_cons]
    obtain ⟨hw, hh, hat⟩ := ih (img.Set (x + (d : Int)) y c)
    refine ⟨by rw [hw, Image.Set_width], by rw [hh, Image.Set_height], ?_⟩
    intro px py
    rw [hat, Image.Set_inBounds, Image.At_Set]
    simp only [List.mem_cons, exists_eq_or_imp]
    exact ite_merge_row _ _ _ _ _ _

/-- The nested loops of `drawBlock`. -/
theorem blockFold_spec (c : RGBA) (x y : Int) (L M : List Nat) (img : Image) :
    (M.foldl (fun (im : Image) (dy : Nat) => L.foldl
      (fun (im : Image) (dx : Nat) => im.Set (x + (dx : Int)) (y + (dy : Int)) c) im)
      img).width = img.width ∧
    (M.foldl (fun (im : Image) (dy : Nat) => L.foldl
      (fun (im : Image) (dx : Nat) => im.Set (x + (dx : Int)) (y + (dy : Int)) c) im)
      img).height = img.height ∧
    ∀ px py,
      (M.foldl (fun (im : Image) (dy : Nat) => L.foldl
        (fun (im : Image) (dx : Nat) => im.Set (x + (dx : Int)) (y + (dy : Int)) c) im)
        img).At px py =
      if ((∃ dy ∈ M, py = y + (dy : Int)) ∧ ∃ dx ∈ L, px = x + (dx : Int)) ∧
          img.inBounds px py = true then c
      else img.At px py := by
  induction M generalizing img with
  | nil => simp
  | cons d rest ih =>
    simp only [List.foldl_cons]
    obtain ⟨hw1, hh1, hat1⟩ := rowFold_spec c x (y + (d : Int)) L img
    obtain ⟨hw, hh, hat⟩ :=
      ih (L.foldl (fun (im : Image) (dx : Nat) => im.Set (x + (dx : Int)) (y + (d : Int)) c) img)
    refine ⟨by rw [hw, hw1], by rw [hh, hh1], ?_⟩
    intro px py
    have hbd : (L.foldl (fun (im : Image) (dx : Nat) =>
        im.Set (x + (dx : Int)) (y + (d : Int)) c) img).inBounds px py = img.inBounds px py := by
      simp only [Image.inBounds, hw1, hh1]
    rw [hat, hbd, hat1]
    simp only [List.mem_cons, exists_eq_or_imp]
    exact ite_merge_block _ _ _ _ _ _

theorem mem_range8 (a b : Int) : (∃ d ∈ List.range 8, a = b + (d : Int)) ↔ b ≤ a ∧ a < b + 8 := by
  constructor
  · rintro ⟨d, hd, e⟩
    rw [List.mem_range] at hd
    omega
  · rintro ⟨h1, h2⟩
    refine ⟨(a - b).toNat, ?_, ?_⟩
    · rw [List.mem_range]; omega
    · omega

/-- Function `drawBlock` paints exactly the pixels of its block that lie inside
the grid. -/
theorem drawBlock_spec (img : Image) (i w : Int) (b : Nat) (hi : 0 ≤ i) (hw : 1 ≤ w) :
    ∃ img1, drawBlock img i w b = .ok img1 ∧ img1.width = img.width ∧
      img1.height = img.height ∧
      ∀ px py, img1.At px py =
        if ((i / w * 8 ≤ py ∧ py < i / w * 8 + 8) ∧ (i % w * 8 ≤ px ∧ px < i % w * 8 + 8)) ∧
            img.inBounds px py = true then colorOf (runeOf b)
        else img.At px py := by
  unfold drawBlock
  rw [getBlockPosition_eq i w hi hw]
  obtain ⟨h1, h2, h3⟩ := blockFold_spec (colorOf (runeOf b)) (i % w * pixelSize)
    (i / w * pixelSize) (List.range 8) (List.range 8) img
  refine ⟨_, rfl, h1, h2, ?_⟩
  intro px py
  rw [h3]
  simp only [mem_range8, pixelSize]

/-- A pixel of a grid `w` blocks wide lies in the square of block `i` exactly
when its block index is `i`. -/
theorem block_iff (w i px py : Int) (hw : 1 ≤ w) (hpx : 0 ≤ px) (hpx2 : px < w * 8) :
    ((i / w * 8 ≤ py ∧ py < i / w * 8 + 8) ∧ (i % w * 8 ≤ px ∧ px < i % w * 8 + 8)) ↔
      py / 8 * w + px / 8 = i := by
  have hb1 : 0 ≤ px / 8 := Int.ediv_nonneg hpx (by norm_num)
  have hb2 : px / 8 < w := Int.ediv_lt_of_lt_mul (by norm_num) hpx2
  constructor
  · rintro ⟨⟨h1, h2⟩, h3, h4⟩
    have e1 : py / 8 = i / w := by omega
    have e2 : px / 8 = i % w := by omega
    rw [e1, e2]
    exact Int.ediv_add_emod' i w
  · intro h
    have e1 : i / w = py / 8 := by
      rw [← h, add_comm, Int.add_mul_ediv_right _ _ (by omega : w ≠ 0),
        Int.ediv_eq_zero_of_lt hb1 hb2]
      simp
    have e2 : i % w = px / 8 := by
      rw [← h, add_comm, Int.add_mul_emod_self, Int.emod_eq_of_lt hb1 hb2]
    rw [e1, e2]
    omega

theorem inBounds_iff (img : Image) (x y : Int) :
    img.inBounds x y = true ↔ (0 ≤ x ∧ x < img.width) ∧ 0 ≤ y ∧ y < img.height := by
  simp [Image.inBounds, and_assoc]

/-- The loop of `encodePNG` paints block `k` with the colour of byte `k`, for
every `k` from `i0` on, and leaves every other pixel as it was. -/
theorem paintBlocks_spec (w : Int) (hw : 1 ≤ w) (data : List Nat) :
    ∀ (i0 : Int) (img : Image), 0 ≤ i0 → img.width = w * 8 →
    ∃ img1, paintBlocks w data i0 img = .ok img1 ∧ img1.width = img.width ∧
      img1.height = img.height ∧
      ∀ px py, img.inBounds px py = true →
        img1.At px py =
          if i0 ≤ py / 8 * w + px / 8 ∧ py / 8 * w + px / 8 < i0 + (data.length : Int) then
            colorOf (runeOf (data.getD (py / 8 * w + px / 8 - i0).toNat 0))
          else img.At px py := by
  induction data with
  | nil =>
    intro i0 img _ _
    refine ⟨img, rfl, rfl, rfl, ?_⟩
    intro px py _
    rw [if_neg]
    simp only [List.length_nil, Int.Nat.cast_ofNat_Int]
    omega
  | cons b rest ih =>
    intro i0 img hi hwid
    obtain ⟨img1, hd, hw1, hh1, hat1⟩ := drawBlock_spec img i0 w b hi hw
    obtain ⟨img2, hp, hw2, hh2, hat2⟩ := ih (i0 + 1) img1 (by omega) (by rw [hw1, hwid])
    refine ⟨img2, ?_, by rw [hw2, hw1], by rw [hh2, hh1], ?_⟩
    · simp only [paintBlocks, hd, hp]
    · intro px py hb
      have hb1 : img1.inBounds px py = true := by
        simpa only [Image.inBounds, hw1, hh1] using hb
      obtain ⟨⟨hx0, hx1⟩, _, _⟩ := (inBounds_iff img px py).mp hb
      rw [hwid] at hx1
      rw [hat2 px py hb1, hat1 px py]
      have hblk := block_iff w i0 px py hw hx0 hx1
      simp only [List.length_cons, Nat.cast_add, Nat.cast_one]
      by_cases hk : py / 8 * w + px / 8 = i0
      · have hmem := hblk.mpr hk
        rw [if_neg (by omega), if_pos ⟨hmem, hb⟩, if_pos (by omega)]
        rw [hk]
        simp
      · have hnot : ¬ (((i0 / w * 8 ≤ py ∧ py < i0 / w * 8 + 8) ∧
            (i0 % w * 8 ≤ px ∧ px < i0 % w * 8 + 8)) ∧ img.inBounds px py = true) := by
          intro h
          exact hk (hblk.mp h.1)
        rw [if_neg hnot]
        by_cases hr : i0 + 1 ≤ py / 8 * w + px / 8 ∧
            py / 8 * w + px / 8 < i0 + 1 + (rest.length : Int)
        · rw [if_pos hr, if_pos (by omega)]
          have : (py / 8 * w + px / 8 - i0).toNat = (py / 8 * w + px / 8 - (i0 + 1)).toNat + 1 := by
            omega
          rw [this, List.getD_cons_succ]
        · rw [if_neg hr, if_neg (by omega)]

/-! ## The loops of `decodePNG` -/

theorem scanRow_eq_iter (ord : MapOrders) (img : Image) (y : Int) (n : Nat) :
    ∀ (fuel : Nat) (x : Int) (data : List Nat), n ≤ fuel →
      (∀ j : Nat, j < n → x + 8 * (j : Int) < img.width) → img.width ≤ x + 8 * (n : Int) →
      scanRow ord img y fuel x data = scanRowIter ord img y n x data := by
  induction n with
  | zero =>
    intro fuel x data _ _ hge
    cases fuel with
    | zero => rfl
    | succ f =>
      simp only [scanRow, scanRowIter]
      rw [if_neg]
      simp only [Nat.cast_zero] at hge
      omega
  | succ n ih =>
    intro fuel x data hf hlt hge
    cases fuel with
    | zero => omega
    | succ f =>
      have h0 := hlt 0 (by omega)
      simp only [Nat.cast_zero, mul_zero, add_zero] at h0
      simp only [scanRow, scanRowIter]
      rw [if_pos h0]
      apply ih f _ _ (by omega)
      · intro j hj
        have := hlt (j + 1) (by omega)
        simp only [pixelSize]
        push_cast at this
        omega
      · simp only [pixelSize]
        push_cast at hge
        omega

theorem scanRow_terminates (ord : MapOrders) (img : Image) (y : Int) (data : List Nat) :
    scanRow ord img y img.width.toNat 0 data = scanRowIter ord img y (steps img.width) 0 data := by
  apply scanRow_eq_iter
  · unfold steps; omega
  · intro j hj; unfold steps at hj; omega
  · unfold steps; omega

theorem scanRows_eq_iter (ord : MapOrders) (img : Image) (n : Nat) :
    ∀ (fuel : Nat) (y : Int) (data : List Nat), n ≤ fuel →
      (∀ j : Nat, j < n → y + 8 * (j : Int) < img.height) → img.height ≤ y + 8 * (n : Int) →
      scanRows ord img fuel y data = scanRowsIter ord img (steps img.width) n y data := by
  induction n with
  | zero =>
    intro fuel y data _ _ hge
    cases fuel with
    | zero => rfl
    | succ f =>
      simp only [scanRows, scanRowsIter]
      rw [if_neg]
      simp only [Nat.cast_zero] at hge
      omega
  | succ n ih =>
    intro fuel y data hf hlt hge
    cases fuel with
    | zero => omega
    | succ f =>
      have h0 := hlt 0 (by omega)
      simp only [Nat.cast_zero, mul_zero, add_zero] at h0
      simp only [scanRows, scanRowsIter]
      rw [if_pos h0, scanRow_terminates]
      apply ih f _ _ (by omega)
      · intro j hj
        have := hlt (j + 1) (by omega)
        simp only [pixelSize]
        push_cast at this
        omega
      · simp only [pixelSize]
        push_cast at hge
        omega

/-- Function `decodePNG` returns: both loops end within their fuel, after
`steps height` rows of `steps width` samples. -/
theorem decodePNG_eq (ord : MapOrders) (img : Image) :
    decodePNG ord img =
      .ok (scanRowsIter ord img (steps img.width) (steps img.height) 0 [], none) := by
  unfold decodePNG
  rw [scanRows_eq_iter ord img (steps img.height)]
  · unfold steps; omega
  · intro j hj; unfold steps at hj; omega
  · unfold steps; omega

/-! ## The stream of `decodePNG` as a list -/

theorem appendSymbol_eq (order : List (Char × RGBA)) (ho : IsOrder order) (c : RGBA)
    (data : List Nat) :
    appendSymbol order c data = data ++ ((lookupSymbol colorMap c).toList.map byteOf) := by
  unfold appendSymbol
  rw [lookupSymbol_order order ho]
  cases lookupSymbol colorMap c <;> simp

theorem scanRowIter_eq (ord : MapOrders) (hord : ord.Valid) (img : Image) (y : Int) (n : Nat) :
    ∀ (x : Int) (data : List Nat),
      scanRowIter ord img y n x data =
        data ++ symbolsAt img ((List.range n).map (fun (j : Nat) => (x + (j : Int) * 8, y))) := by
  induction n with
  | zero => intro x data; simp [scanRowIter, symbolsAt]
  | succ n ih =>
    intro x data
    simp only [scanRowIter]
    rw [ih, appendSymbol_eq _ (hord.1 x y), List.range_succ_eq_map]
    simp only [symbolsAt, List.map_cons, List.map_map, List.filterMap_cons, Nat.cast_zero,
      zero_mul, add_zero, pixelSize]
    have hfun : ((fun j : Nat => (x + 8 + (j : Int) * 8, y)) : Nat → Int × Int) =
        ((fun j : Nat => (x + (j : Int) * 8, y)) ∘ Nat.succ) := by
      funext j
      simp only [Function.comp, Nat.succ_eq_add_one, Nat.cast_add, Nat.cast_one]
      congr 1
      ring
    rw [hfun]
    cases lookupSymbol colorMap (sampleColor img x y) <;> simp

theorem scanRowsIter_eq (ord : MapOrders) (hord : ord.Valid) (img : Image) (m n : Nat) :
    ∀ (y : Int) (data : List Nat),
      scanRowsIter ord img m n y data =
        data ++ symbolsAt img ((List.range n).flatMap (fun (r : Nat) =>
          (List.range m).map (fun (c : Nat) => ((c : Int) * 8, y + (r : Int) * 8)))) := by
  induction n with
  | zero => intro y data; simp [scanRowsIter, symbolsAt]
  | succ n ih =>
    intro y data
    simp only [scanRowsIter]
    rw [ih, scanRowIter_eq ord hord, List.range_succ_eq_map]
    simp only [symbolsAt, List.flatMap_cons, List.flatMap_map, List.filterMap_append,
      List.map_append, List.append_assoc, Nat.cast_zero, zero_mul, add_zero, zero_add, pixelSize]
    have hf : (fun r : Nat =>
        List.map (fun c : Nat => ((c : Int) * 8, y + 8 + (r : Int) * 8)) (List.range m)) =
        (fun a : Nat =>
          List.map (fun c : Nat => ((c : Int) * 8, y + (a.succ : Int) * 8)) (List.range m)) := by
      funext r
      apply List.map_congr_left
      intro c _
      simp only [Nat.succ_eq_add_one, Nat.cast_add, Nat.cast_one]
      congr 1
      ring
    rw [hf]

/-- The stream returned by `decodePNG`: the symbols of exactly those sampled
blocks whose colour is registered, in the order of the scan. -/
theorem decodePNG_symbols (ord : MapOrders) (hord : ord.Valid) (img : Image) :
    decodePNG ord img = .ok (symbolsAt img (blockOrigins img), none) := by
  rw [decodePNG_eq, scanRowsIter_eq ord hord]
  simp only [List.nil_append, blockOrigins, zero_add]

/-! ## Symbols, bytes and sampled colours -/

theorem toBytes_alphabet (S : List Char) (hS : ∀ c ∈ S, c ∈ alphabet) :
    toBytes S = S.map byteOf := by
  induction S with
  | nil => rfl
  | cons c cs ih =>
    have hc : c ∈ alphabet := hS c (List.mem_cons_self _ _)
    have key : ∀ d ∈ alphabet, (String.utf8EncodeChar d).map UInt8.toNat = [byteOf d] := by
      decide
    have h1 := key c hc
    have ih' := ih (fun d hd => hS d (List.mem_cons_of_mem _ hd))
    unfold toBytes at ih' ⊢
    rw [List.flatMap_cons, h1, ih']
    rfl

theorem runeOf_byteOf (s : Char) (hs : s ∈ alphabet) : runeOf (byteOf s) = s := by
  revert s; decide

theorem byteOf_ne_zero (s : Char) (hs : s ∈ alphabet) : byteOf s ≠ 0 := by
  revert s; decide

theorem byteOf_eq_toNat (s : Char) (hs : s ∈ alphabet) : byteOf s = s.toNat := by
  revert s; decide

theorem sampleColor_symbol (img : Image) (x y : Int) (s : Char) (hs : s ∈ alphabet)
    (h : img.At x y = colorOf s) : sampleColor img x y = colorOf s := by
  have key : ∀ t ∈ alphabet,
      (match (colorOf t).components with
        | (r, g, b, _) => ({ R := high8 r, G := high8 g, B := high8 b, A := 255 } : RGBA))
        = colorOf t := by
    decide
  unfold sampleColor
  rw [h]
  exact key s hs

theorem sampleColor_zero (img : Image) (x y : Int) (h : img.At x y = RGBA.zero) :
    sampleColor img x y = ⟨0, 0, 0, 255⟩ := by
  unfold sampleColor
  rw [h]
  decide

theorem appendSymbol_symbol (order : List (Char × RGBA)) (ho : IsOrder order) (s : Char)
    (hs : s ∈ alphabet) (data : List Nat) :
    appendSymbol order (colorOf s) data = data ++ [byteOf s] := by
  have h : lookupSymbol order (colorOf s) = some s := by
    rw [lookupSymbol_order order ho]
    revert s; decide
  unfold appendSymbol
  rw [h]

theorem appendSymbol_black (order : List (Char × RGBA)) (ho : IsOrder order)
    (data : List Nat) : appendSymbol order ⟨0, 0, 0, 255⟩ data = data := by
  have h : lookupSymbol order ⟨0, 0, 0, 255⟩ = none := by
    rw [lookupSymbol_order order ho]
    decide
  unfold appendSymbol
  rw [h]

/-! ## Reading back a painted grid -/

theorem take_succ_map_byteOf (S : List Char) (k : Nat) (hk : k < S.length) :
    (S.take (k + 1)).map byteOf = (S.take k).map byteOf ++ [byteOf (S.get ⟨k, hk⟩)] := by
  rw [List.take_succ, List.map_append]
  simp [List.getElem?_eq_getElem hk]

theorem scanRowIter_shows (ord : MapOrders) (hord : ord.Valid) (S : List Char)
    (hS : ∀ c ∈ S, c ∈ alphabet) (wn : Nat) (img : Image) (hsh : Shows img (toBytes S) wn) (r : Nat)
    (hr : (r : Int) * 8 < img.height) (n : Nat) :
    ∀ c : Nat, c + n ≤ wn →
      scanRowIter ord img ((r : Int) * 8) n ((c : Int) * 8) ((S.take (r * wn + c)).map byteOf)
        = (S.take (r * wn + c + n)).map byteOf := by
  obtain ⟨hwid, hat⟩ := hsh
  induction n with
  | zero => intro c _; rfl
  | succ n ih =>
    intro c hc
    have hb : img.inBounds ((c : Int) * 8) ((r : Int) * 8) = true := by
      rw [inBounds_iff, hwid]
      omega
    have hk : (r : Int) * 8 / 8 * (wn : Int) + (c : Int) * 8 / 8 = ((r * wn + c : Nat) : Int) := by
      rw [Int.mul_ediv_cancel _ (by norm_num), Int.mul_ediv_cancel _ (by norm_num)]
      push_cast
      rfl
    have hatk := hat _ _ hb
    rw [hk, toBytes_alphabet S hS, List.length_map] at hatk
    simp only [scanRowIter]
    have hstep : appendSymbol (ord.atPixel ((c : Int) * 8) ((r : Int) * 8))
        (sampleColor img ((c : Int) * 8) ((r : Int) * 8)) ((S.take (r * wn + c)).map byteOf)
        = (S.take (r * wn + c + 1)).map byteOf := by
      by_cases hlt : r * wn + c < S.length
      · have hlt' : ((r * wn + c : Nat) : Int) < (S.length : Int) := by exact_mod_cast hlt
        rw [if_pos hlt', Int.toNat_ofNat] at hatk
        have hget : (S.map byteOf).getD (r * wn + c) 0 = byteOf (S.get ⟨r * wn + c, hlt⟩) := by
          rw [List.getD_eq_getElem?_getD, List.getElem?_map, List.getElem?_eq_getElem hlt]
          rfl
        have hmem : S.get ⟨r * wn + c, hlt⟩ ∈ alphabet := hS _ (List.get_mem _ _ _)
        rw [hget, runeOf_byteOf _ hmem] at hatk
        rw [sampleColor_symbol img _ _ _ hmem hatk,
          appendSymbol_symbol _ (hord.1 _ _) _ hmem, take_succ_map_byteOf S _ hlt]
      · have hge' : ¬ ((r * wn + c : Nat) : Int) < (S.length : Int) := by
          intro h; exact hlt (by exact_mod_cast h)
        rw [if_neg hge'] at hatk
        rw [sampleColor_zero img _ _ hatk, appendSymbol_black _ (hord.1 _ _),
          List.take_of_length_le (by omega), List.take_of_length_le (by omega)]
    rw [hstep]
    have h8 : (c : Int) * 8 + pixelSize = ((c + 1 : Nat) : Int) * 8 := by
      simp only [pixelSize]; push_cast; ring
    rw [h8]
    have := ih (c + 1) (by omega)
    rw [show r * wn + (c + 1) = r * wn + c + 1 by ring] at this
    rw [this]
    congr 2
    ring

theorem scanRowsIter_shows (ord : MapOrders) (hord : ord.Valid) (S : List Char)
    (hS : ∀ c ∈ S, c ∈ alphabet) (wn : Nat) (img : Image) (hsh : Shows img (toBytes S) wn) (n : Nat) :
    ∀ r : Nat, ((r + n : Nat) : Int) * 8 ≤ img.height →
      scanRowsIter ord img wn n ((r : Int) * 8) ((S.take (r * wn)).map byteOf)
        = (S.take ((r + n) * wn)).map byteOf := by
  induction n with
  | zero => intro r _; rfl
  | succ n ih =>
    intro r hr
    simp only [scanRowsIter]
    have hrow := scanRowIter_shows ord hord S hS wn img hsh r (by push_cast at hr; omega) wn 0
      (by omega)
    simp only [Nat.cast_zero, zero_mul, add_zero] at hrow
    rw [hrow]
    have h8 : (r : Int) * 8 + pixelSize = ((r + 1 : Nat) : Int) * 8 := by
      simp only [pixelSize]; push_cast; ring
    rw [h8, show r * wn + wn = (r + 1) * wn by ring, ih (r + 1) (by push_cast at hr ⊢; omega)]
    congr 2
    ring

/-- Reading back a grid that shows `S` and has room for all of `S` yields the
bytes of `S`. -/
theorem decodePNG_shows (ord : MapOrders) (hord : ord.Valid) (S : List Char)
    (hS : ∀ c ∈ S, c ∈ alphabet) (wn rn : Nat) (img : Image)
    (hsh : Shows img (toBytes S) wn)
    (hhei : img.height = (rn : Int) * 8) (hroom : S.length ≤ rn * wn) :
    decodePNG ord img = .ok (toBytes S, none) := by
  rw [decodePNG_eq, hsh.1, hhei]
  have h1 : steps ((wn : Int) * 8) = wn := by unfold steps; omega
  have h2 : steps ((rn : Int) * 8) = rn := by unfold steps; omega
  rw [h1, h2]
  have h := scanRowsIter_shows ord hord S hS wn img hsh rn 0 (by rw [hhei]; simp)
  simp only [Nat.cast_zero, zero_mul, List.take_zero, List.map_nil, zero_add] at h
  rw [h, List.take_of_length_le hroom, toBytes_alphabet S hS]

/-! ## The raster round trip -/

theorem NewRGBA_At (width height x y : Int) : (NewRGBA width height).At x y = RGBA.zero := by
  unfold Image.At NewRGBA
  split <;> rfl

theorem toBytes_length (S : List Char) (hS : ∀ c ∈ S, c ∈ alphabet) :
    (toBytes S).length = S.length := by
  rw [toBytes_alphabet S hS, List.length_map]

theorem cleanHexData_alphabet (S : List Char) (hS : ∀ c ∈ S, c ∈ alphabet) :
    cleanHexData S = S := by
  induction S with
  | nil => rfl
  | cons c cs ih =>
    have key : ∀ d ∈ alphabet, cleanRune d = some d := by decide
    have hc := key c (hS c (List.mem_cons_self _ _))
    have ih' := ih (fun d hd => hS d (List.mem_cons_of_mem _ hd))
    unfold cleanHexData stringsMap at ih' ⊢
    rw [List.filterMap_cons, hc, ih']

/-- The grid painted by `encodePNG` shows the bytes it was given. -/
theorem encodePNG_shows (data : List Nat) (w : Int) (hw : 1 ≤ w) (height : Int) :
    ∃ img, encodePNG data (w * pixelSize) height w = .ok (Document.png img, none) ∧
      Shows img data w.toNat ∧ img.height = height := by
  obtain ⟨img, hp, hwid, hhei, hat⟩ :=
    paintBlocks_spec w hw data 0 (NewRGBA (w * pixelSize) height) (le_refl 0) rfl
  refine ⟨img, ?_, ⟨?_, ?_⟩, ?_⟩
  · unfold encodePNG
    rw [hp]
  · rw [hwid, Int.toNat_of_nonneg (by omega)]
    rfl
  · intro px py hb
    have hb0 : (NewRGBA (w * pixelSize) height).inBounds px py = true := by
      simpa only [Image.inBounds, hwid, hhei] using hb
    rw [hat px py hb0, NewRGBA_At, Int.toNat_of_nonneg (by omega : 0 ≤ w)]
    obtain ⟨⟨hx0, _⟩, hy0, _⟩ := (inBounds_iff _ px py).mp hb
    have hk : 0 ≤ py / 8 * w + px / 8 := by
      have h1 : 0 ≤ py / 8 := Int.ediv_nonneg hy0 (by norm_num)
      have h2 : 0 ≤ px / 8 := Int.ediv_nonneg hx0 (by norm_num)
      have h3 : 0 ≤ py / 8 * w := Int.mul_nonneg h1 (by omega)
      omega
    simp only [zero_add, sub_zero, hk, true_and]
  · rw [hhei]
    rfl

theorem ceilQuotient_eq_of_nonneg (undef N w : Int) (hN : 0 ≤ N) (hN2 : N < 2 ^ 53)
    (hw : 1 ≤ w) : ceilQuotient undef N w = (N + w - 1) / w := by
  rcases eq_or_lt_of_le hN with h0 | h0
  · subst h0
    rw [ceilQuotient_zero undef w hw]
    symm
    apply Int.ediv_eq_zero_of_lt <;> omega
  · exact ceilQuotient_eq undef N w (by omega) hN2 hw

theorem trimPadding_of_last_ne_zero (d : List Nat) (h : d.getLast? ≠ some 0) :
    trimPadding d = d := by
  unfold trimPadding
  cases hl : d.length with
  | zero => rfl
  | succ n =>
    unfold trimLoop
    rw [if_neg]
    rintro ⟨_, h2⟩
    exact h h2

theorem trimPadding_toBytes (S : List Char) (hS : ∀ c ∈ S, c ∈ alphabet) :
    trimPadding (toBytes S) = toBytes S := by
  apply trimPadding_of_last_ne_zero
  rw [toBytes_alphabet S hS]
  intro h
  have hmem : (0 : Nat) ∈ S.map byteOf := List.mem_of_getLast?_eq_some h
  obtain ⟨s, hs, h0⟩ := List.mem_map.mp hmem
  exact byteOf_ne_zero s (hS s hs) h0

theorem toBytes_eq_codes (S : List Char) (hS : ∀ c ∈ S, c ∈ alphabet) :
    toBytes S = S.map Char.toNat := by
  rw [toBytes_alphabet S hS]
  apply List.map_congr_left
  intro s hs
  exact byteOf_eq_toNat s (hS s hs)

/-- Raster round trip, with the size of the grid and the raw result of `decodePNG`. -/
theorem raster_round_trip_aux (undef : Int) (ord : MapOrders) (S : List Char)
    (blocksPerRow : Int) (hS : ∀ c ∈ S, c ∈ alphabet) (hb : 1 ≤ blocksPerRow)
    (hlen : (S.length : Int) < 2 ^ 53) (hord : ord.Valid) :
    ∃ img, encodeHexlishToImage undef S blocksPerRow false = .ok (Document.png img, none) ∧
      img.width = blocksPerRow * 8 ∧
      img.height = ((S.length : Int) + blocksPerRow - 1) / blocksPerRow * 8 ∧
      decodePNG ord img = .ok (toBytes S, none) ∧
      decodeToHexlish ord (Document.png img) = .ok (S.map Char.toNat ++ [10], none) := by
  have hcv : canvasOf undef (S.length : Int) blocksPerRow =
      { blocksPerRow := blocksPerRow
        rows := ((S.length : Int) + blocksPerRow - 1) / blocksPerRow
        width := blocksPerRow * pixelSize
        height := ((S.length : Int) + blocksPerRow - 1) / blocksPerRow * pixelSize } := by
    simp only [canvasOf]
    rw [if_neg (by omega), ceilQuotient_eq_of_nonneg undef _ _ (by omega) hlen hb]
  obtain ⟨img, henc, hsh, hhei⟩ := encodePNG_shows (toBytes S) blocksPerRow hb
    (((S.length : Int) + blocksPerRow - 1) / blocksPerRow * pixelSize)
  obtain ⟨hc1, hc2⟩ := ceilDiv_bounds (S.length : Int) blocksPerRow hb
  have hrows0 : 0 ≤ ((S.length : Int) + blocksPerRow - 1) / blocksPerRow :=
    Int.ediv_nonneg (by omega) (by omega)
  have hdec : decodePNG ord img = .ok (toBytes S, none) := by
    apply decodePNG_shows ord hord S hS blocksPerRow.toNat
      (((S.length : Int) + blocksPerRow - 1) / blocksPerRow).toNat img hsh
    · rw [hhei, Int.toNat_of_nonneg hrows0]
      rfl
    · have : (S.length : Int) ≤
          (((((S.length : Int) + blocksPerRow - 1) / blocksPerRow).toNat *
            blocksPerRow.toNat : Nat) : Int) := by
        rw [Nat.cast_mul, Int.toNat_of_nonneg hrows0, Int.toNat_of_nonneg (by omega)]
        exact hc2
      exact_mod_cast this
  refine ⟨img, ?_, ?_, ?_, hdec, ?_⟩
  · simp only [encodeHexlishToImage]
    rw [cleanHexData_alphabet S hS, toBytes_length S hS, hcv]
    simpa using henc
  · rw [hsh.1, Int.toNat_of_nonneg (by omega)]
  · rw [hhei]
    rfl
  · simp only [decodeToHexlish, hdec]
    rw [trimPadding_toBytes S hS, toBytes_eq_codes S hS]

theorem MapOrders.listed_valid : MapOrders.listed.Valid :=
  ⟨fun _ _ => List.Perm.refl _, fun _ => List.Perm.refl _⟩

theorem splitLoop_skip (sep : List Char) (A R cur : List Char) :
    splitLoop sep (A ++ R) A.length cur = splitLoop sep R 0 cur := by
  induction A with
  | nil => rfl
  | cons a as ih =>
    simp only [List.cons_append, List.length_cons, splitLoop]
    exact ih

theorem isPrefixOf_cons_ne (h c : Char) (t cs : List Char) (hne : c ≠ h) :
    (h :: t).isPrefixOf (c :: cs) = false := by
  simp [List.isPrefixOf, hne.symm]

theorem splitLoop_miss (h : Char) (t P T : List Char) (hP : ∀ c ∈ P, c ≠ h) :
    ∀ cur, splitLoop (h :: t) (P ++ T) 0 cur = splitLoop (h :: t) T 0 (P.reverse ++ cur) := by
  induction P with
  | nil => intro cur; rfl
  | cons c cs ih =>
    intro cur
    have hc : c ≠ h := hP c (List.mem_cons_self _ _)
    simp only [List.cons_append, splitLoop, List.append_eq]
    rw [isPrefixOf_cons_ne h c t _ hc]
    simp only [Bool.false_eq_true, if_false]
    rw [ih (fun d hd => hP d (List.mem_cons_of_mem _ hd))]
    simp

theorem isPrefixOf_append_self (A R : List Char) : A.isPrefixOf (A ++ R) = true := by
  induction A with
  | nil => simp [List.isPrefixOf]
  | cons a as ih => simp [List.isPrefixOf, ih]

theorem splitLoop_hit (h : Char) (t R cur : List Char) :
    splitLoop (h :: t) ((h :: t) ++ R) 0 cur = cur.reverse :: splitLoop (h :: t) R 0 [] := by
  have hp := isPrefixOf_append_self (h :: t) R
  simp only [List.cons_append] at hp ⊢
  simp only [splitLoop]
  rw [hp]
  simp only [if_true, List.length_cons, Nat.add_sub_cancel]
  rw [splitLoop_skip]

theorem splitLoop_nil (sep cur : List Char) : splitLoop sep [] 0 cur = [cur.reverse] := by
  simp [splitLoop]

/-- A separator that first occurs after the piece `P` splits `P` off. -/
theorem stringsSplit_first (h : Char) (t P R : List Char) (hP : ∀ c ∈ P, c ≠ h) :
    stringsSplit (P ++ ((h :: t) ++ R)) (h :: t) = P :: splitLoop (h :: t) R 0 [] := by
  unfold stringsSplit
  rw [splitLoop_miss h t P _ hP, splitLoop_hit]
  simp

/-- A string without the first rune of the separator is not split. -/
theorem stringsSplit_none (h : Char) (t P : List Char) (hP : ∀ c ∈ P, c ≠ h) :
    splitLoop (h :: t) P 0 [] = [P] := by
  have := splitLoop_miss h t P [] hP []
  rw [List.append_nil] at this
  rw [this, splitLoop_nil]
  simp

theorem stringsContains_append (P A R : List Char) :
    stringsContains (P ++ (A ++ R)) A = true := by
  induction P with
  | nil =>
    cases hA : A ++ R with
    | nil =>
      have : A = [] := (List.append_eq_nil.mp hA).1
      subst this
      simp [stringsContains]
    | cons c cs =>
      simp only [List.nil_append, stringsContains]
      rw [← hA, isPrefixOf_append_self]
      rfl
  | cons p ps ih =>
    simp only [List.cons_append, stringsContains, List.append_eq]
    rw [ih]
    simp

theorem stringsContains_none (h : Char) (t L : List Char) (hL : ∀ c ∈ L, c ≠ h) :
    stringsContains L (h :: t) = false := by
  induction L with
  | nil => rfl
  | cons c cs ih =>
    simp only [stringsContains]
    rw [isPrefixOf_cons_ne h c t _ (hL c (List.mem_cons_self _ _)),
      ih (fun d hd => hL d (List.mem_cons_of_mem _ hd))]
    rfl

/-! ## Decimal digits -/

theorem digitChar_ne_f (m : Nat) (hm : m < 10) : Nat.digitChar m ≠ 'f' := by
  have key : ∀ k : Fin 10, Nat.digitChar k.val ≠ 'f' := by decide
  exact key ⟨m, hm⟩

theorem toDigitsCore_ne_f (fuel : Nat) :
    ∀ (n : Nat) (ds : List Char), (∀ c ∈ ds, c ≠ 'f') →
      ∀ c ∈ Nat.toDigitsCore 10 fuel n ds, c ≠ 'f' := by
  induction fuel with
  | zero => intro n ds hds; simpa [Nat.toDigitsCore] using hds
  | succ f ih =>
    intro n ds hds
    have hd : ∀ c ∈ Nat.digitChar (n % 10) :: ds, c ≠ 'f' := by
      intro c hc
      rcases List.mem_cons.mp hc with e | hmem
      · rw [e]; exact digitChar_ne_f _ (Nat.mod_lt _ (by norm_num))
      · exact hds c hmem
    simp only [Nat.toDigitsCore]
    split
    · exact hd
    · exact ih _ _ hd

theorem fmtInt_ne_f (n : Int) : ∀ c ∈ fmtInt n, c ≠ 'f' := by
  unfold fmtInt Nat.toDigits
  split
  · intro c hc
    rcases List.mem_cons.mp hc with e | hmem
    · rw [e]; decide
    · exact toDigitsCore_ne_f _ _ [] (by simp) c hmem
  · exact toDigitsCore_ne_f _ _ [] (by simp)

/-! ## Rectangle lines -/

theorem svgRect_eq (x y w h : Int) (c : RGBA) :
    svgRect x y w h (fillStyle c) = rectHead x y w h ++ ("fill:rgb(".toList ++ colorTail c) := by
  simp [svgRect, fillStyle, rectHead, colorTail, List.append_assoc]

theorem rectHead_ne_f (x y w h : Int) : ∀ c ∈ rectHead x y w h, c ≠ 'f' := by
  intro c hc
  simp only [rectHead, List.mem_append] at hc
  rcases hc with ((((((((h1 | h1) | h1) | h1) | h1) | h1) | h1) | h1) | h1)
  · revert c; decide
  · exact fmtInt_ne_f _ c h1
  · revert c; decide
  · exact fmtInt_ne_f _ c h1
  · revert c; decide
  · exact fmtInt_ne_f _ c h1
  · revert c; decide
  · exact fmtInt_ne_f _ c h1
  · revert c; decide

theorem colorTail_split :
    ∀ c ∈ RGBA.zero :: colorMap.map Prod.snd,
      splitLoop "fill:rgb(".toList (colorTail c) 0 [] = [colorTail c] ∧
      parseColor (colorTail c) = .ok { c with A := 255 } := by
  decide

/-- The decoder reads the colour of a rectangle line written by the encoder. -/
theorem decodeLine_rect (order : List (Char × RGBA)) (x y w h : Int) (c : RGBA)
    (hc : c ∈ RGBA.zero :: colorMap.map Prod.snd) (data : List Nat) :
    decodeLine order (svgRect x y w h (fillStyle c)) data
      = .ok (appendSymbol order { c with A := 255 } data) := by
  obtain ⟨h1, h2⟩ := colorTail_split c hc
  have hkey : "fill:rgb(".toList = 'f' :: "ill:rgb(".toList := rfl
  have hsplit : stringsSplit (svgRect x y w h (fillStyle c)) "fill:rgb(".toList
      = [rectHead x y w h, colorTail c] := by
    rw [svgRect_eq, hkey, stringsSplit_first 'f' _ _ _ (rectHead_ne_f x y w h), ← hkey, h1]
  have hcont : stringsContains (svgRect x y w h (fillStyle c)) "fill:rgb(".toList = true := by
    rw [svgRect_eq]
    exact stringsContains_append _ _ _
  unfold decodeLine
  rw [hcont, hsplit]
  simp only [if_true, index, List.get?, h2]

theorem colorOf_mem (k : Char) : colorOf k ∈ RGBA.zero :: colorMap.map Prod.snd := by
  unfold colorOf
  cases h : colorMap.lookup k with
  | none => simp
  | some c =>
    have : (k, c) ∈ colorMap := by
      have key : ∀ (l : List (Char × RGBA)), l.lookup k = some c → (k, c) ∈ l := by
        intro l
        induction l with
        | nil => simp
        | cons kv rest ih =>
          obtain ⟨a, b⟩ := kv
          by_cases hk : k = a
          · subst hk
            simp [List.lookup]
            intro hb; left; exact hb.symm
          · have h' : (k == a) = false := by simpa using hk
            simp only [List.lookup, h']
            intro hl
            exact List.mem_cons_of_mem _ (ih hl)
      exact key _ h
    simp only [Option.getD_some]
    exact List.mem_cons_of_mem _ (List.mem_map.mpr ⟨(k, c), this, rfl⟩)

theorem decodeLine_symbol (order : List (Char × RGBA)) (ho : IsOrder order) (x y w h : Int)
    (s : Char) (hs : s ∈ alphabet) (data : List Nat) :
    decodeLine order (svgRect x y w h (fillStyle (colorOf s))) data
      = .ok (data ++ [byteOf s]) := by
  rw [decodeLine_rect order x y w h _ (colorOf_mem s)]
  have key : ∀ t ∈ alphabet, ({ colorOf t with A := 255 } : RGBA) = colorOf t := by decide
  rw [key s hs, appendSymbol_symbol order ho s hs]

theorem decodeLine_plain (order : List (Char × RGBA)) (line : List Char) (data : List Nat)
    (h : ∀ c ∈ line, c ≠ 'f') : decodeLine order line data = .ok data := by
  have hkey : "fill:rgb(".toList = 'f' :: "ill:rgb(".toList := rfl
  unfold decodeLine
  rw [hkey, stringsContains_none 'f' _ line h]
  rfl

theorem svgStart_plain (width height : Int) :
    ∀ line ∈ svgStart width height, ∀ c ∈ line, c ≠ 'f' := by
  intro line hl
  simp only [svgStart, List.mem_cons, List.mem_singleton, List.not_mem_nil, or_false] at hl
  rcases hl with h | h | h | h | h
  · subst h; decide
  · subst h; decide
  · subst h
    intro c hc
    simp only [List.mem_append] at hc
    rcases hc with ((((h1 | h1) | h1) | h1) | h1)
    · revert c; decide
    · exact fmtInt_ne_f _ c h1
    · revert c; decide
    · exact fmtInt_ne_f _ c h1
    · revert c; decide
  · subst h; decide
  · subst h; decide

theorem svgEnd_plain : ∀ line ∈ svgEnd, ∀ c ∈ line, c ≠ 'f' := by
  decide

theorem decodeLines_plain (ord : MapOrders) (ls : List (List Char))
    (h : ∀ line ∈ ls, ∀ c ∈ line, c ≠ 'f') :
    ∀ (n : Nat) (data : List Nat), decodeLines ord ls n data = .ok data := by
  induction ls with
  | nil => intro n data; rfl
  | cons l rest ih =>
    intro n data
    simp only [decodeLines]
    rw [decodeLine_plain _ l data (h l (List.mem_cons_self _ _))]
    exact ih (fun line hl => h line (List.mem_cons_of_mem _ hl)) _ _

theorem decodeLines_append (ord : MapOrders) (A B : List (List Char)) :
    ∀ (n : Nat) (data : List Nat),
      decodeLines ord (A ++ B) n data =
        match decodeLines ord A n data with
        | .error p => .error p
        | .ok data1 => decodeLines ord B (n + A.length) data1 := by
  induction A with
  | nil => intro n data; simp [decodeLines]
  | cons l rest ih =>
    intro n data
    simp only [List.cons_append, decodeLines, List.append_eq]
    cases hl : decodeLine (ord.atLine n) l data with
    | error p => rfl
    | ok d1 =>
      simp only []
      rw [ih (n + 1) d1, List.length_cons]
      have : n + 1 + rest.length = n + (rest.length + 1) := by omega
      rw [this]

/-- The rectangle lines of a stream over the alphabet decode to its bytes. -/
theorem rectLines_spec (ord : MapOrders) (hord : ord.Valid) (w : Int) (hw : 1 ≤ w)
    (S : List Char) (hS : ∀ c ∈ S, c ∈ alphabet) :
    ∀ (i : Int) (n : Nat) (data : List Nat), 0 ≤ i →
      ∃ rects, rectLines w (S.map byteOf) i = .ok rects ∧ rects.length = S.length ∧
        (∀ l ∈ rects, ∃ x y s, s ∈ S ∧
          l = svgRect x y pixelSize pixelSize (fillStyle (colorOf s))) ∧
        decodeLines ord rects n data = .ok (data ++ S.map byteOf) := by
  induction S with
  | nil => intro i n data _; exact ⟨[], rfl, rfl, by simp, by simp [decodeLines]⟩
  | cons s rest ih =>
    intro i n data hi
    have hs : s ∈ alphabet := hS s (List.mem_cons_self _ _)
    obtain ⟨rects, h1, h2, h4, h3⟩ :=
      ih (fun d hd => hS d (List.mem_cons_of_mem _ hd)) (i + 1) (n + 1) (data ++ [byteOf s])
        (by omega)
    refine ⟨svgRect (i % w * pixelSize) (i / w * pixelSize) pixelSize pixelSize
      (fillStyle (colorOf s)) :: rects, ?_, by simp [h2], ?_, ?_⟩
    · simp only [List.map_cons, rectLines]
      rw [getBlockPosition_eq i w hi hw, h1, runeOf_byteOf s hs]
    · intro l hl
      rcases List.mem_cons.mp hl with e | hmem
      · exact ⟨_, _, s, List.mem_cons_self _ _, e⟩
      · obtain ⟨x, y, t, ht, e⟩ := h4 l hmem
        exact ⟨x, y, t, List.mem_cons_of_mem _ ht, e⟩
    · simp only [decodeLines]
      rw [decodeLine_symbol _ (hord.2 n) _ _ _ _ s hs]
      simp only []
      rw [h3]
      simp

/-! ## The vector round trip -/

/-- Vector round trip, on the rectangle lines and on the whole document. -/
theorem vector_round_trip_aux (undef : Int) (ord : MapOrders) (S : List Char)
    (blocksPerRow : Int) (hS : ∀ c ∈ S, c ∈ alphabet) (hb : 1 ≤ blocksPerRow)
    (hord : ord.Valid) :
    ∃ rects,
      encodeHexlishToImage undef S blocksPerRow true =
        .ok (Document.svg
          (svgStart (canvasOf undef (S.length : Int) blocksPerRow).width
              (canvasOf undef (S.length : Int) blocksPerRow).height ++ rects ++ svgEnd), none) ∧
      rects.length = S.length ∧
      (∀ l ∈ rects, ∃ x y s, s ∈ S ∧
        l = svgRect x y pixelSize pixelSize (fillStyle (colorOf s))) ∧
      decodeToHexlish ord (Document.svg rects) = .ok (S.map Char.toNat ++ [10], none) ∧
      decodeToHexlish ord
        (Document.svg
          (svgStart (canvasOf undef (S.length : Int) blocksPerRow).width
              (canvasOf undef (S.length : Int) blocksPerRow).height ++ rects ++ svgEnd))
        = .ok (S.map Char.toNat ++ [10], none) := by
  obtain ⟨rects, h1, h2, h4, h3⟩ := rectLines_spec ord hord blocksPerRow hb S hS 0 0 [] (le_refl 0)
  obtain ⟨rects', h1', _, _, h3'⟩ := rectLines_spec ord hord blocksPerRow hb S hS 0
    (0 + (svgStart (canvasOf undef (S.length : Int) blocksPerRow).width
      (canvasOf undef (S.length : Int) blocksPerRow).height).length) [] (le_refl 0)
  have hr : rects' = rects := by
    rw [h1] at h1'
    injection h1' with e
    exact e.symm
  subst hr
  have hbpr : (canvasOf undef (S.length : Int) blocksPerRow).blocksPerRow = blocksPerRow := by
    simp only [canvasOf]
    rw [if_neg (by omega)]
  refine ⟨rects', ?_, h2, h4, ?_, ?_⟩
  · simp only [encodeHexlishToImage]
    rw [cleanHexData_alphabet S hS, toBytes_length S hS, hbpr]
    simp only [Bool.true_eq_false, if_true, encodeSVG]
    rw [toBytes_alphabet S hS, h1]
  · simp only [decodeToHexlish, decodeSVG, h3]
    rw [List.nil_append, ← toBytes_alphabet S hS, trimPadding_toBytes S hS,
      toBytes_eq_codes S hS]
  · simp only [decodeToHexlish, decodeSVG]
    rw [List.append_assoc, decodeLines_append, decodeLines_plain ord _ (svgStart_plain _ _)]
    simp only []
    rw [decodeLines_append, h3']
    simp only []
    rw [decodeLines_plain ord _ svgEnd_plain]
    simp only []
    rw [List.nil_append, ← toBytes_alphabet S hS, trimPadding_toBytes S hS,
      toBytes_eq_codes S hS]

/-- C2: for every symbol stream `S` over the 16-symbol alphabet and every
`blocksPerRow >= 1`, `encodeHexlishToImage` with the vector format writes the
svgo header, one rectangle line per symbol, each carrying a style
`fill:rgb(r,g,b)`, and the closing tag; `decodeToHexlish` on the
rectangle lines, and on the whole document, writes exactly the bytes of `S`
followed by one line feed, whatever the iteration orders of the map. -/
theorem vector_round_trip (undef : Int) (ord : MapOrders) (S : List Char)
    (blocksPerRow : Int) (hS : ∀ c ∈ S, c ∈ alphabet) (hb : 1 ≤ blocksPerRow)
    (hord : ord.Valid) :
    ∃ rects,
      encodeHexlishToImage undef S blocksPerRow true =
        .ok (Document.svg
          (svgStart (canvasOf undef (S.length : Int) blocksPerRow).width
              (canvasOf undef (S.length : Int) blocksPerRow).height ++ rects ++ svgEnd), none) ∧
      rects.length = S.length ∧
      (∀ l ∈ rects, ∃ x y s, s ∈ S ∧
        l = svgRect x y pixelSize pixelSize (fillStyle (colorOf s))) ∧
      (∀ l ∈ rects, stringsContains l "fill:rgb(".toList = true) ∧
      decodeToHexlish ord (Document.svg rects) = .ok (S.map Char.toNat ++ [10], none) ∧
      decodeToHexlish ord
        (Document.svg
          (svgStart (canvasOf undef (S.length : Int) blocksPerRow).width
              (canvasOf undef (S.length : Int) blocksPerRow).height ++ rects ++ svgEnd))
        = .ok (S.map Char.toNat ++ [10], none) := by
  obtain ⟨rects, h1, h2, h3, h4, h5⟩ :=
    vector_round_trip_aux undef ord S blocksPerRow hS hb hord
  refine ⟨rects, h1, h2, h3, ?_, h4, h5⟩
  intro l hl
  obtain ⟨x, y, s, _, e⟩ := h3 l hl
  rw [e, svgRect_eq]
  exact stringsContains_append _ _ _

/-- C2, at an instance: the stream `ACEV` in rows of 3 blocks. -/
theorem vector_round_trip_witness :
    ∃ rects,
      encodeHexlishToImage 0 "ACEV".toList 3 true =
        .ok (Document.svg
          (svgStart (canvasOf 0 ("ACEV".toList.length : Int) 3).width
              (canvasOf 0 ("ACEV".toList.length : Int) 3).height ++ rects ++ svgEnd), none) ∧
      rects.length = "ACEV".toList.length ∧
      (∀ l ∈ rects, ∃ x y s, s ∈ "ACEV".toList ∧
        l = svgRect x y pixelSize pixelSize (fillStyle (colorOf s))) ∧
      (∀ l ∈ rects, stringsContains l "fill:rgb(".toList = true) ∧
      decodeToHexlish MapOrders.listed (Document.svg rects)
        = .ok ("ACEV".toList.map Char.toNat ++ [10], none) ∧
      decodeToHexlish MapOrders.listed
        (Document.svg
          (svgStart (canvasOf 0 ("ACEV".toList.length : Int) 3).width
              (canvasOf 0 ("ACEV".toList.length : Int) 3).height ++ rects ++ svgEnd))
        = .ok ("ACEV".toList.map Char.toNat ++ [10], none) :=
  vector_round_trip 0 MapOrders.listed "ACEV".toList 3 (by decide) (by decide)
    MapOrders.listed_valid

/-! ## The encoders never fail -/

theorem lookupSymbol_unregistered (order : List (Char × RGBA)) (ho : IsOrder order) (c : RGBA)
    (hc : c ∉ colorMap.map Prod.snd) : lookupSymbol order c = none := by
  unfold lookupSymbol
  rw [Option.map_eq_none', List.find?_eq_none]
  intro kv hkv
  simp only [decide_eq_true_eq]
  intro h
  apply hc
  exact List.mem_map.mpr ⟨kv, ho.mem_iff.mp hkv, h⟩

theorem appendSymbol_unregistered (order : List (Char × RGBA)) (ho : IsOrder order) (c : RGBA)
    (hc : c ∉ colorMap.map Prod.snd) (data : List Nat) : appendSymbol order c data = data := by
  unfold appendSymbol
  rw [lookupSymbol_unregistered order ho c hc]

/-- C5, refuted on a grid and on a document: a grid 16 by 8 whose first block
has the colour of `A` and whose second block has the unregistered colour
`(1,2,3)` decodes without error to `A` and a line feed, and so does the
document with one rectangle of each colour; a grid or document with the
unregistered colour alone decodes without error to the empty stream. -/
theorem decode_unknown_color_no_error :
    decodeToHexlish MapOrders.listed
      (Document.png (((NewRGBA 16 8).Set 0 0 (colorOf 'A')).Set 8 0 ⟨1, 2, 3, 255⟩))
      = .ok ([65, 10], none) ∧
    decodeToHexlish MapOrders.listed
      (Document.svg [svgRect 0 0 8 8 (fillStyle (colorOf 'A')),
        svgRect 8 0 8 8 "fill:rgb(1,2,3)".toList])
      = .ok ([65, 10], none) ∧
    decodeToHexlish MapOrders.listed (Document.png ((NewRGBA 8 8).Set 0 0 ⟨1, 2, 3, 255⟩))
      = .ok ([10], none) ∧
    decodeToHexlish MapOrders.listed (Document.svg [svgRect 0 0 8 8 "fill:rgb(1,2,3)".toList])
      = .ok ([10], none) := by
  refine ⟨by decide, by decide, by decide, by decide⟩

/-- C5, as the code has it: a colour that is not registered never fails the
decode. For every grid `decodePNG` returns no error and the symbols of exactly
those sampled blocks whose colour is registered, in the order of the scan; a
sampled or parsed colour outside the table appends nothing and the stream built
so far is kept; a line whose fill colour parses to such a colour leaves the
stream unchanged and the scan goes on. -/
theorem decode_skips_unknown_color (ord : MapOrders) (hord : ord.Valid) :
    (∀ img : Image, decodePNG ord img = .ok (symbolsAt img (blockOrigins img), none)) ∧
    (∀ (x y : Int) (c : RGBA) (data : List Nat), c ∉ colorMap.map Prod.snd →
      appendSymbol (ord.atPixel x y) c data = data) ∧
    (∀ (n : Nat) (line part : List Char) (c : RGBA) (data : List Nat),
      stringsContains line "fill:rgb(".toList = true →
      index (stringsSplit line "fill:rgb(".toList) 1 = .ok part →
      parseColor part = .ok c → c ∉ colorMap.map Prod.snd →
      decodeLine (ord.atLine n) line data = .ok data) := by
  refine ⟨decodePNG_symbols ord hord, ?_, ?_⟩
  · intro x y c data hc
    exact appendSymbol_unregistered _ (hord.1 x y) c hc data
  · intro n line part c data h1 h2 h3 hc
    unfold decodeLine
    rw [h1, if_pos rfl, h2]
    simp only [h3]
    rw [appendSymbol_unregistered _ (hord.2 n) c hc]

/-- C5, at an instance: the colour `(1,2,3)` sampled at the origin, and a
rectangle line filled with it. -/
theorem decode_skips_unknown_color_witness :
    appendSymbol (MapOrders.listed.atPixel 0 0) ⟨1, 2, 3, 255⟩ [65] = [65] ∧
    decodeLine (MapOrders.listed.atLine 0) (svgRect 0 0 8 8 "fill:rgb(1,2,3)".toList) [65]
      = .ok [65] :=
  ⟨(decode_skips_unknown_color MapOrders.listed MapOrders.listed_valid).2.1 0 0 ⟨1, 2, 3, 255⟩
      [65] (by decide),
   (decode_skips_unknown_color MapOrders.listed MapOrders.listed_valid).2.2 0
      (svgRect 0 0 8 8 "fill:rgb(1,2,3)".toList) "1,2,3)\" />".toList ⟨1, 2, 3, 255⟩ [65]
      (by decide) (by decide) (by decide) (by decide)⟩

/-! ## The padding trim -/

/-- C10: for every byte sequence `d`, `d` is the trimmed result followed by a
run of zero bytes, and the trimmed result is empty or ends in a non-zero byte,
so exactly the maximal trailing run of zeros is removed; a sequence that does
not end in zero is returned unchanged; interior zeros are kept
(`[65,0,67,0,0]` gives `[65,0,67]`); and the stream `ACE` encoded with
`blocksPerRow = 4`, a grid of four blocks for three symbols, decodes back to
`ACE` and a line feed. -/
theorem trimPadding_spec (d : List Nat) :
    (∃ k, d = trimPadding d ++ List.replicate k 0) ∧
    (trimPadding d = [] ∨ ∃ b, (trimPadding d).getLast? = some b ∧ b ≠ 0) ∧
    (d.getLast? ≠ some 0 → trimPadding d = d) ∧
    trimPadding [65, 0, 67, 0, 0] = [65, 0, 67] ∧
    (∀ (undef : Int) (ord : MapOrders), ord.Valid →
      ∃ img, encodeHexlishToImage undef "ACE".toList 4 false = .ok (Document.png img, none) ∧
        img.width = 4 * 8 ∧ img.height = 1 * 8 ∧
        decodeToHexlish ord (Document.png img) = .ok ([65, 67, 69, 10], none)) := by
  obtain ⟨k, h1, h2⟩ := trimLoop_spec d.length d (le_refl _)
  refine ⟨⟨k, h1⟩, h2, trimPadding_of_last_ne_zero d, by decide, ?_⟩
  intro undef ord hord
  obtain ⟨img, e1, e2, e3, _, e5⟩ :=
    raster_round_trip_aux undef ord "ACE".toList 4 (by decide) (by decide) (by decide) hord
  exact ⟨img, e1, e2, e3, e5⟩

/-- C10, at an instance: a sequence that does not end in zero, and the stream
`ACE` read back with the table in its listed order. -/
theorem trimPadding_spec_witness :
    trimPadding [65, 0, 67] = [65, 0, 67] ∧
    ∃ img, encodeHexlishToImage 0 "ACE".toList 4 false = .ok (Document.png img, none) ∧
      img.width = 4 * 8 ∧ img.height = 1 * 8 ∧
      decodeToHexlish MapOrders.listed (Document.png img) = .ok ([65, 67, 69, 10], none) :=
  ⟨(trimPadding_spec [65, 0, 67]).2.2.1 (by decide),
   (trimPadding_spec []).2.2.2.2 0 MapOrders.listed MapOrders.listed_valid⟩

/-! ## The blocks sampled by `decodePNG` -/

theorem blockOrigins_length (img : Image) :
    (blockOrigins img).length = steps img.width * steps img.height := by
  unfold blockOrigins
  rw [List.length_flatMap]
  have : (List.length ∘ fun (r : Nat) =>
      (List.range (steps img.width)).map (fun (c : Nat) => ((c : Int) * 8, (r : Int) * 8)))
      = fun _ => steps img.width := by
    funext r
    simp
  rw [this]
  simp [Nat.mul_comm]

theorem mem_blockOrigins (img : Image) (p : Int × Int) :
    p ∈ blockOrigins img ↔
      ∃ r : Nat, r < steps img.height ∧ ∃ c : Nat, c < steps img.width ∧
        p = ((c : Int) * 8, (r : Int) * 8) := by
  unfold blockOrigins
  simp only [List.mem_flatMap, List.mem_map, List.mem_range]
  constructor
  · rintro ⟨r, hr, c, hc, e⟩
    exact ⟨r, hr, c, hc, e.symm⟩
  · rintro ⟨r, hr, c, hc, e⟩
    exact ⟨r, hr, c, hc, e.symm⟩

theorem steps_eq (limit : Int) (h : 0 ≤ limit) :
    (steps limit : Int) = limit / 8 + (if limit % 8 = 0 then 0 else 1) := by
  unfold steps
  split <;> omega

theorem lt_of_lt_steps (limit : Int) (c : Nat) (h : c < steps limit) : (c : Int) * 8 < limit := by
  unfold steps at h
  omega

theorem blockOrigins_inBounds (img : Image) (p : Int × Int) (hp : p ∈ blockOrigins img) :
    img.inBounds p.1 p.2 = true ∧ p.1 % 8 = 0 ∧ p.2 % 8 = 0 := by
  obtain ⟨r, hr, c, hc, e⟩ := (mem_blockOrigins img p).mp hp
  subst e
  have h1 := lt_of_lt_steps _ _ hr
  have h2 := lt_of_lt_steps _ _ hc
  refine ⟨?_, ?_, ?_⟩
  · rw [inBounds_iff]
    simp only
    omega
  · simp only; omega
  · simp only; omega

theorem lookupSymbol_mem (c : RGBA) (k : Char) (h : lookupSymbol colorMap c = some k) :
    k ∈ alphabet ∧ colorOf k = c := by
  have key : ∀ kv ∈ colorMap, kv.1 ∈ alphabet ∧ colorOf kv.1 = kv.2 := by decide
  unfold lookupSymbol at h
  rw [Option.map_eq_some'] at h
  obtain ⟨kv, hf, e⟩ := h
  have hm := List.mem_of_find?_eq_some hf
  have hc := List.find?_some hf
  simp only [decide_eq_true_eq] at hc
  obtain ⟨h1, h2⟩ := key kv hm
  rw [e] at h1 h2
  exact ⟨h1, h2.trans hc⟩

theorem lookupSymbol_isSome (c : RGBA) :
    (lookupSymbol colorMap c).isSome = registered c := by
  unfold registered
  cases h : lookupSymbol colorMap c with
  | none =>
    symm
    simp only [Option.isSome_none, decide_eq_false_iff_not]
    intro hm
    obtain ⟨kv, hkv, e⟩ := List.mem_map.mp hm
    unfold lookupSymbol at h
    rw [Option.map_eq_none', List.find?_eq_none] at h
    exact h kv hkv (by simpa using e)
  | some k =>
    symm
    simp only [Option.isSome_some, decide_eq_true_eq]
    obtain ⟨hk, e⟩ := lookupSymbol_mem c k h
    rw [← e]
    have key : ∀ t ∈ alphabet, colorOf t ∈ colorMap.map Prod.snd := by decide
    exact key k hk

theorem length_filterMap_eq {α β : Type} (f : α → Option β) (l : List α) :
    (l.filterMap f).length = (l.filter (fun a => (f a).isSome)).length := by
  induction l with
  | nil => rfl
  | cons a as ih =>
    rw [List.filterMap_cons, List.filter_cons]
    cases h : f a <;> simp [ih]

/-- The bytes appended for a list of origins are bytes of symbols, none of them
zero, one for every origin whose sampled colour is registered. -/
theorem symbolsAt_spec (img : Image) (origins : List (Int × Int)) :
    (∀ b ∈ symbolsAt img origins, ∃ k ∈ alphabet, b = byteOf k) ∧
    (0 : Nat) ∉ symbolsAt img origins ∧
    (symbolsAt img origins).length =
      (origins.filter (fun p => registered (sampleColor img p.1 p.2))).length := by
  have h1 : ∀ b ∈ symbolsAt img origins, ∃ k ∈ alphabet, b = byteOf k := by
    intro b hb
    unfold symbolsAt at hb
    obtain ⟨k, hk, e⟩ := List.mem_map.mp hb
    obtain ⟨p, _, hl⟩ := List.mem_filterMap.mp hk
    exact ⟨k, (lookupSymbol_mem _ k hl).1, e.symm⟩
  refine ⟨h1, ?_, ?_⟩
  · intro h0
    obtain ⟨k, hk, e⟩ := h1 0 h0
    exact byteOf_ne_zero k hk e.symm
  · unfold symbolsAt
    rw [List.length_map, length_filterMap_eq]
    congr 1
    apply List.filter_congr
    intro p _
    exact lookupSymbol_isSome _

theorem sampleColor_congr (img1 img2 : Image) (x y : Int) (h : img1.At x y = img2.At x y) :
    sampleColor img1 x y = sampleColor img2 x y := by
  unfold sampleColor
  rw [h]

/-- C16: two grids of the same dimensions that agree on the top-left pixel of
every block, the pixels `(x, y)` of the grid with `x` and `y` multiples of
`pixelSize`, decode to the same result, whatever their other pixels and
whatever the iteration orders of the map. -/
theorem decodePNG_samples_corners (ord1 ord2 : MapOrders) (img1 img2 : Image)
    (h1 : ord1.Valid) (h2 : ord2.Valid)
    (hw : img1.width = img2.width) (hh : img1.height = img2.height)
    (hag : ∀ x y : Int, img1.inBounds x y = true → x % pixelSize = 0 → y % pixelSize = 0 →
      img1.At x y = img2.At x y) :
    decodePNG ord1 img1 = decodePNG ord2 img2 := by
  rw [decodePNG_symbols ord1 h1, decodePNG_symbols ord2 h2]
  have ho : blockOrigins img2 = blockOrigins img1 := by
    unfold blockOrigins
    rw [hw, hh]
  rw [ho]
  unfold symbolsAt
  congr 3
  apply List.filterMap_congr
  intro p hp
  obtain ⟨hb, hx, hy⟩ := blockOrigins_inBounds img1 p hp
  rw [sampleColor_congr img1 img2 p.1 p.2 (hag p.1 p.2 hb hx hy)]

/-- C16, at an instance: a grid with one block of `A`, and the same grid with
another pixel of that block repainted. -/
theorem decodePNG_samples_corners_witness :
    decodePNG MapOrders.listed ((NewRGBA 8 8).Set 0 0 (colorOf 'A')) =
      decodePNG MapOrders.listed (((NewRGBA 8 8).Set 0 0 (colorOf 'A')).Set 3 5 (colorOf 'V')) :=
  decodePNG_samples_corners MapOrders.listed MapOrders.listed
    ((NewRGBA 8 8).Set 0 0 (colorOf 'A'))
    (((NewRGBA 8 8).Set 0 0 (colorOf 'A')).Set 3 5 (colorOf 'V'))
    MapOrders.listed_valid MapOrders.listed_valid rfl rfl
    (by
      intro x y hb hx hy
      rw [Image.At_Set _ 3 5]
      rw [if_neg]
      rintro ⟨⟨e1, _⟩, _⟩
      subst e1
      simp [pixelSize] at hx)

/-! ## Partial blocks -/

/-- C14, refuted on a grid 12 pixels wide and 8 high whose pixel `(0,0)` has the
colour of `A` and whose pixel `(8,0)` has the colour of `C`: the partial second
block is sampled and `decodePNG` returns two symbols, where
`(width div pixelSize) * (height div pixelSize)` is 1. -/
theorem decodePNG_partial_block_sampled :
    decodePNG MapOrders.listed
      (((NewRGBA 12 8).Set 0 0 (colorOf 'A')).Set 8 0 (colorOf 'C')) = .ok ([65, 67], none) ∧
    (((NewRGBA 12 8).Set 0 0 (colorOf 'A')).Set 8 0 (colorOf 'C')).width / pixelSize *
      ((((NewRGBA 12 8).Set 0 0 (colorOf 'A')).Set 8 0 (colorOf 'C')).height / pixelSize) = 1 ∧
    (blockOrigins (((NewRGBA 12 8).Set 0 0 (colorOf 'A')).Set 8 0 (colorOf 'C'))).length = 2 := by
  refine ⟨by decide, by decide, by decide⟩

/-- C14, as the code has it: the loops of `decodePNG` make
`ceil(height / pixelSize)` passes of `ceil(width / pixelSize)` samples, one
more than the quotient on an axis whose size is not a multiple of `pixelSize`;
every sampled origin lies inside the grid, so a final partial row or column is
sampled at its top-left pixel, and it contributes a symbol exactly when that
pixel has a registered colour: when every sampled colour is registered the
stream has one symbol per sampled block. -/
theorem decodePNG_block_count (ord : MapOrders) (hord : ord.Valid) (img : Image) :
    decodePNG ord img =
      .ok (scanRowsIter ord img (steps img.width) (steps img.height) 0 [], none) ∧
    decodePNG ord img = .ok (symbolsAt img (blockOrigins img), none) ∧
    (blockOrigins img).length = steps img.width * steps img.height ∧
    (0 ≤ img.width → (steps img.width : Int) =
      img.width / pixelSize + (if img.width % pixelSize = 0 then 0 else 1)) ∧
    (0 ≤ img.height → (steps img.height : Int) =
      img.height / pixelSize + (if img.height % pixelSize = 0 then 0 else 1)) ∧
    (∀ p ∈ blockOrigins img, img.inBounds p.1 p.2 = true) ∧
    (symbolsAt img (blockOrigins img)).length =
      ((blockOrigins img).filter (fun p => registered (sampleColor img p.1 p.2))).length ∧
    ((∀ p ∈ blockOrigins img, registered (sampleColor img p.1 p.2) = true) →
      (symbolsAt img (blockOrigins img)).length = steps img.width * steps img.height) := by
  refine ⟨decodePNG_eq ord img, decodePNG_symbols ord hord img, blockOrigins_length img,
    steps_eq img.width, steps_eq img.height,
    fun p hp => (blockOrigins_inBounds img p hp).1, (symbolsAt_spec img _).2.2, ?_⟩
  intro hall
  rw [(symbolsAt_spec img _).2.2, List.filter_eq_self.mpr hall, blockOrigins_length]

/-- C14, at an instance: a grid 12 by 8 filled with the colour of `A` is
sampled twice and decodes to two symbols. -/
theorem decodePNG_block_count_witness :
    (symbolsAt { width := 12, height := 8, pix := fun _ _ => colorOf 'A' }
      (blockOrigins { width := 12, height := 8, pix := fun _ _ => colorOf 'A' })).length
      = steps 12 * steps 8 :=
  (decodePNG_block_count MapOrders.listed MapOrders.listed_valid
    { width := 12, height := 8, pix := fun _ _ => colorOf 'A' }).2.2.2.2.2.2.2 (by decide)

/-! ## The stream of `decodeSVG` -/

theorem index_error {α : Type} (xs : List α) (i : Nat) (p : Panic) (h : index xs i = .error p) :
    p = Panic.indexOutOfRange := by
  unfold index at h
  split at h
  · cases h
  · injection h with e; exact e.symm

theorem index_of_le {α : Type} (xs : List α) (i : Nat) (h : xs.length ≤ i) :
    index xs i = .error Panic.indexOutOfRange := by
  unfold index
  rw [List.get?_eq_none.mpr h]

theorem parseColor_error (part : List Char) (p : Panic) (h : parseColor part = .error p) :
    p = Panic.indexOutOfRange := by
  unfold parseColor at h
  split at h
  · rename_i q hq
    injection h with e
    rw [← e]
    exact index_error _ _ _ hq
  · simp only at h
    split at h
    · cases h
    · injection h with e; exact e.symm

theorem decodeLine_error (order : List (Char × RGBA)) (line : List Char) (data : List Nat)
    (p : Panic) (h : decodeLine order line data = .error p) : p = Panic.indexOutOfRange := by
  unfold decodeLine at h
  split at h
  · split at h
    · rename_i q hq
      injection h with e
      rw [← e]
      exact index_error _ _ _ hq
    · split at h
      · rename_i q hq
        injection h with e
        rw [← e]
        exact parseColor_error _ _ hq
      · cases h
  · cases h

/-- A line whose colour part has fewer than three components makes the index
expressions of `decodeSVG` panic. -/
theorem decodeLine_malformed (order : List (Char × RGBA)) (line : List Char) (data : List Nat)
    (hc : stringsContains line "fill:rgb(".toList = true) (hl : (colorParts line).length < 3) :
    decodeLine order line data = .error Panic.indexOutOfRange := by
  unfold decodeLine
  rw [if_pos hc]
  unfold colorParts at hl
  cases h1 : index (stringsSplit line "fill:rgb(".toList) 1 with
  | error p => rw [index_error _ _ _ h1]
  | ok part =>
    rw [h1] at hl
    simp only at hl ⊢
    have hpc : parseColor part = .error Panic.indexOutOfRange := by
      unfold parseColor
      cases h2 : index (stringsSplit part ")".toList) 0 with
      | error p => rw [index_error _ _ _ h2]
      | ok colorStr =>
        rw [h2] at hl
        simp only at hl ⊢
        rw [index_of_le _ 2 (by omega)]
        split
        · rename_i heq
          cases heq
        · rfl
    rw [hpc]

theorem decodeLines_malformed (ord : MapOrders) (lines : List (List Char))
    (h : ∃ line ∈ lines, stringsContains line "fill:rgb(".toList = true ∧
      (colorParts line).length < 3) :
    ∀ (n : Nat) (data : List Nat), decodeLines ord lines n data = .error Panic.indexOutOfRange := by
  induction lines with
  | nil => obtain ⟨l, hl, _⟩ := h; simp at hl
  | cons l rest ih =>
    intro n data
    simp only [decodeLines]
    cases hd : decodeLine (ord.atLine n) l data with
    | error p => rw [decodeLine_error _ _ _ _ hd]
    | ok d1 =>
      simp only
      apply ih
      obtain ⟨line, hmem, hc, hlen⟩ := h
      rcases List.mem_cons.mp hmem with e | hm
      · subst e
        rw [decodeLine_malformed _ _ _ hc hlen] at hd
        cases hd
      · exact ⟨line, hm, hc, hlen⟩

/-- C11, on the code: a document that holds a line with `fill:rgb(` whose
colour part has fewer than three comma-separated components makes `decodeSVG`
panic with an index out of range; it returns neither a stream nor an error
value, and `decodeToHexlish` panics with it. -/
theorem decodeSVG_malformed_panics (ord : MapOrders) (lines : List (List Char))
    (h : ∃ line ∈ lines, stringsContains line "fill:rgb(".toList = true ∧
      (colorParts line).length < 3) :
    decodeSVG ord lines = .error Panic.indexOutOfRange ∧
    decodeToHexlish ord (Document.svg lines) = .error Panic.indexOutOfRange := by
  have hd : decodeSVG ord lines = .error Panic.indexOutOfRange := by
    unfold decodeSVG
    rw [decodeLines_malformed ord lines h]
  refine ⟨hd, ?_⟩
  simp only [decodeToHexlish, hd]

/-- C11, at the failing input: a rectangle line with the style `fill:rgb(1,2)`. -/
theorem decodeSVG_malformed_panics_witness :
    decodeSVG MapOrders.listed
      ["<rect x=\"0\" y=\"0\" width=\"8\" height=\"8\" style=\"fill:rgb(1,2)\" />".toList]
      = .error Panic.indexOutOfRange ∧
    decodeToHexlish MapOrders.listed (Document.svg
      ["<rect x=\"0\" y=\"0\" width=\"8\" height=\"8\" style=\"fill:rgb(1,2)\" />".toList])
      = .error Panic.indexOutOfRange :=
  decodeSVG_malformed_panics MapOrders.listed
    ["<rect x=\"0\" y=\"0\" width=\"8\" height=\"8\" style=\"fill:rgb(1,2)\" />".toList]
    ⟨_, List.mem_singleton_self _, by decide, by decide⟩

theorem isPrefixOf_mem (pat : List Char) :
    ∀ L : List Char, pat.isPrefixOf L = true → ∀ c ∈ pat, c ∈ L := by
  induction pat with
  | nil => intro L _ c hc; simp at hc
  | cons p ps ih =>
    intro L h c hc
    cases L with
    | nil => simp [List.isPrefixOf] at h
    | cons l ls =>
      simp only [List.isPrefixOf, Bool.and_eq_true, beq_iff_eq] at h
      obtain ⟨e, h2⟩ := h
      rcases List.mem_cons.mp hc with e1 | hm
      · rw [e1, e]; exact List.mem_cons_self _ _
      · exact List.mem_cons_of_mem _ (ih ls h2 c hm)

/-- A string that lacks one of the runes of a pattern does not contain the
pattern. -/
theorem stringsContains_missing (pat : List Char) (c : Char) (hc : c ∈ pat) :
    ∀ L : List Char, c ∉ L → stringsContains L pat = false := by
  intro L
  induction L with
  | nil =>
    intro _
    cases pat with
    | nil => simp at hc
    | cons p ps => rfl
  | cons l ls ih =>
    intro hL
    simp only [stringsContains]
    have h1 : pat.isPrefixOf (l :: ls) = false := by
      cases h : pat.isPrefixOf (l :: ls) with
      | false => rfl
      | true => exact absurd (isPrefixOf_mem pat _ h c hc) hL
    rw [h1, ih (fun hm => hL (List.mem_cons_of_mem _ hm))]
    rfl

theorem toDigitsCore_mem (fuel : Nat) :
    ∀ (n : Nat) (ds : List Char), (∀ c ∈ ds, c ∈ "-0123456789".toList) →
      ∀ c ∈ Nat.toDigitsCore 10 fuel n ds, c ∈ "-0123456789".toList := by
  induction fuel with
  | zero => intro n ds hds; simpa [Nat.toDigitsCore] using hds
  | succ f ih =>
    intro n ds hds
    have hd : ∀ c ∈ Nat.digitChar (n % 10) :: ds, c ∈ "-0123456789".toList := by
      intro c hc
      rcases List.mem_cons.mp hc with e | hmem
      · rw [e]
        have key : ∀ k : Fin 10, Nat.digitChar k.val ∈ "-0123456789".toList := by decide
        exact key ⟨n % 10, Nat.mod_lt _ (by norm_num)⟩
      · exact hds c hmem
    simp only [Nat.toDigitsCore]
    split
    · exact hd
    · exact ih _ _ hd

/-- The verb `%d` prints a sign and decimal digits only. -/
theorem fmtInt_mem (n : Int) : ∀ c ∈ fmtInt n, c ∈ "-0123456789".toList := by
  unfold fmtInt Nat.toDigits
  split
  · intro c hc
    rcases List.mem_cons.mp hc with e | hmem
    · rw [e]; decide
    · exact toDigitsCore_mem _ _ [] (by simp) c hmem
  · exact toDigitsCore_mem _ _ [] (by simp)

theorem svgStart_no_rect (width height : Int) :
    ∀ line ∈ svgStart width height, stringsContains line "<rect".toList = false := by
  intro line hl
  simp only [svgStart, List.mem_cons, List.mem_singleton, List.not_mem_nil, or_false] at hl
  rcases hl with h | h | h | h | h
  · subst h; decide
  · subst h; decide
  · subst h
    apply stringsContains_missing _ 'r' (by decide)
    intro hc
    simp only [List.mem_append] at hc
    rcases hc with ((((h1 | h1) | h1) | h1) | h1)
    · revert h1; decide
    · have := fmtInt_mem _ _ h1; revert this; decide
    · revert h1; decide
    · have := fmtInt_mem _ _ h1; revert this; decide
    · revert h1; decide
  · subst h; decide
  · subst h; decide

theorem svgRect_has_rect (x y w h : Int) (style : List Char) :
    stringsContains (svgRect x y w h style) "<rect".toList = true := by
  have e : svgRect x y w h style =
      [] ++ ("<rect".toList ++ (" x=\"".toList ++ fmtInt x ++ "\" y=\"".toList ++ fmtInt y
        ++ "\" width=\"".toList ++ fmtInt w ++ "\" height=\"".toList ++ fmtInt h
        ++ "\" style=\"".toList ++ style ++ "\" />".toList)) := by
    simp [svgRect, List.append_assoc]
  rw [e]
  exact stringsContains_append _ _ _

/-- The loop of `encodeSVG` writes one rectangle line per byte, in order, at
the position of its index and filled with the colour of its rune. -/
theorem rectLines_detail (w : Int) (hw : 1 ≤ w) (data : List Nat) :
    ∀ i0 : Int, 0 ≤ i0 →
      ∃ rects, rectLines w data i0 = .ok rects ∧ rects.length = data.length ∧
        (∀ (j : Nat) (h : j < data.length),
          rects.get? j = some (svgRect ((i0 + (j : Int)) % w * pixelSize)
            ((i0 + (j : Int)) / w * pixelSize) pixelSize pixelSize
            (fillStyle (colorOf (runeOf (data.get ⟨j, h⟩)))))) ∧
        ∀ l ∈ rects, stringsContains l "<rect".toList = true := by
  induction data with
  | nil => intro i0 _; exact ⟨[], rfl, rfl, by simp, by simp⟩
  | cons b rest ih =>
    intro i0 hi
    obtain ⟨rects, h1, h2, h3, h4⟩ := ih (i0 + 1) (by omega)
    refine ⟨svgRect (i0 % w * pixelSize) (i0 / w * pixelSize) pixelSize pixelSize
      (fillStyle (colorOf (runeOf b))) :: rects, ?_, by simp [h2], ?_, ?_⟩
    · simp only [rectLines]
      rw [getBlockPosition_eq i0 w hi hw, h1]
    · intro j h
      cases j with
      | zero => simp
      | succ j =>
        have hj : j < rest.length := by simpa using h
        have := h3 j hj
        simp only [List.get?_cons_succ, List.get_cons_succ]
        rw [this]
        have e : i0 + 1 + (j : Int) = i0 + ((j + 1 : Nat) : Int) := by push_cast; ring
        rw [e]
    · intro l hl
      rcases List.mem_cons.mp hl with e | hm
      · rw [e]; exact svgRect_has_rect _ _ _ _ _
      · exact h4 l hm

theorem filter_eq_nil_of {α : Type} (p : α → Bool) (l : List α) (h : ∀ a ∈ l, p a = false) :
    l.filter p = [] := by
  rw [List.filter_eq_nil_iff]
  intro a ha
  rw [h a ha]
  simp

/-- C13: for every byte stream of length `N` and every `w >= 1`, `encodeSVG`
writes the svgo header, then exactly `N` rectangle lines and the closing tag:
the `i`-th rectangle has the origin `getBlockPosition(i, w)`, width and height
`pixelSize` and the style `fill:rgb(R,G,B)` of the colour `colorMap` gives the
`i`-th rune; no other line of the document is a rectangle, and two adjacent
blocks of the same colour give two rectangles. -/
theorem vector_output (data : List Nat) (w : Int) (hw : 1 ≤ w) (width height : Int) :
    ∃ rects,
      encodeSVG data width height w =
        .ok (Document.svg (svgStart width height ++ rects ++ svgEnd), none) ∧
      rects.length = data.length ∧
      (∀ (i : Nat) (h : i < data.length), ∃ x y,
        getBlockPosition (i : Int) w = .ok (x, y) ∧
        rects.get? i = some (svgRect x y pixelSize pixelSize
          (fillStyle (colorOf (runeOf (data.get ⟨i, h⟩)))))) ∧
      ((svgStart width height ++ rects ++ svgEnd).filter
        (fun l => stringsContains l "<rect".toList)).length = data.length ∧
      (∀ c : RGBA, fillStyle c =
        "fill:rgb(".toList ++ fmtInt c.R ++ ",".toList ++ fmtInt c.G ++ ",".toList
          ++ fmtInt c.B ++ ")".toList) ∧
      encodeSVG [65, 65] 16 8 2 =
        .ok (Document.svg (svgStart 16 8 ++
          [svgRect 0 0 8 8 (fillStyle (colorOf 'A')),
           svgRect 8 0 8 8 (fillStyle (colorOf 'A'))] ++ svgEnd), none) := by
  obtain ⟨rects, h1, h2, h3, h4⟩ := rectLines_detail w hw data 0 (le_refl 0)
  refine ⟨rects, ?_, h2, ?_, ?_, fun c => rfl, rfl⟩
  · unfold encodeSVG
    rw [h1]
  · intro i h
    refine ⟨(i : Int) % w * pixelSize, (i : Int) / w * pixelSize,
      getBlockPosition_eq _ w (by omega) hw, ?_⟩
    have := h3 i h
    simp only [zero_add] at this
    exact this
  · rw [List.filter_append, List.filter_append,
      filter_eq_nil_of _ _ (svgStart_no_rect width height),
      filter_eq_nil_of _ svgEnd (by decide), List.filter_eq_self.mpr h4]
    simp [h2]

/-- C13, at an instance: the bytes of `AAC` in rows of 2 blocks. -/
theorem vector_output_witness :
    ∃ rects,
      encodeSVG [65, 65, 67] 16 16 2 =
        .ok (Document.svg (svgStart 16 16 ++ rects ++ svgEnd), none) ∧
      rects.length = ([65, 65, 67] : List Nat).length ∧
      (∀ (i : Nat) (h : i < ([65, 65, 67] : List Nat).length), ∃ x y,
        getBlockPosition (i : Int) 2 = .ok (x, y) ∧
        rects.get? i = some (svgRect x y pixelSize pixelSize
          (fillStyle (colorOf (runeOf (([65, 65, 67] : List Nat).get ⟨i, h⟩)))))) ∧
      ((svgStart 16 16 ++ rects ++ svgEnd).filter
        (fun l => stringsContains l "<rect".toList)).length = ([65, 65, 67] : List Nat).length ∧
      (∀ c : RGBA, fillStyle c =
        "fill:rgb(".toList ++ fmtInt c.R ++ ",".toList ++ fmtInt c.G ++ ",".toList
          ++ fmtInt c.B ++ ")".toList) ∧
      encodeSVG [65, 65] 16 8 2 =
        .ok (Document.svg (svgStart 16 8 ++
          [svgRect 0 0 8 8 (fillStyle (colorOf 'A')),
           svgRect 8 0 8 8 (fillStyle (colorOf 'A'))] ++ svgEnd), none) :=
  vector_output [65, 65, 67] 2 (by decide) 16 16

end Hexlish2img
